import Mathlib

/-!
Verification development for the arc_unpacker format-decoding core.

Shallow embedding of:
* `LndFileDecoder::decompress_raw_data` (src/fmt/kid/lnd_file_decoder.cc) —
  the custom LZ-style codec, modelled as a small-step interpreter over an
  explicit state (output buffer, output position, input position) that also
  records an access log (input reads, output writes) so that memory-safety
  statements can be made about the accesses the C++ code actually performs.
* the LND decoder recognition/decode entry points,
* the XP3 archive header/version/table-of-contents parsing
  (src/fmt/kirikiri/xp3_archive_decoder.cc), with the external binary
  cursor modelled as a byte list read by absolute position (fixed-length
  reads truncate; the cursor is an external collaborator) and the external
  zlib inflate primitive taken as a function parameter,
* the FSN XP3 filter (src/formats/arc/xp3_archive/xp3_filter_fsn.cc).

Bytes are modelled as `Nat`; the only arithmetic the codec performs on byte
values is the additive blend `+=`, which is taken mod 256 (u8 wraparound).
All recursion is structural (loops that consume a variable number of input
bytes per iteration take explicit fuel; the LND main loop consumes at least
one input byte per iteration and requires the input position to stay below
the input length, so fuel `input.length + 1` is never exhausted).
-/

/-- One logged memory access of the decompression engine:
a read of input byte `i` or a write of output byte `i`. -/
inductive Access where
  | readI (i : Nat)
  | writeO (i : Nat)
deriving DecidableEq, Repr

/-- Interpreter state for `decompress_raw_data`: the output buffer (fixed
length, zero-initialized), the output write position (`output_ptr`), the
input read position (`input_ptr`), and the access log. -/
structure St where
  out : List Nat
  opos : Nat
  ipos : Nat
  log : List Access
deriving DecidableEq, Repr

/-- Fill-run inner loop (control byte with bit7=1, bit6=1):
`for i in range(repetitions) { if (output_ptr >= output_end) break;
*output_ptr++ = *input_ptr; }` — the fill value is re-read from the same
input position on every iteration and the input position is not advanced. -/
def fillLoop (input : List Nat) (n : Nat) : Nat → St → St
  | 0, st => st
  | reps + 1, st =>
    if st.opos ≥ n then st
    else
      fillLoop input n reps
        { out := st.out.set st.opos (input.getD st.ipos 0)
          opos := st.opos + 1
          ipos := st.ipos
          log := st.log ++ [Access.readI st.ipos, Access.writeO st.opos] }

/-- Fill-run operation: `repetitions = (byte & 0x1F) + 2`, plus
`*input_ptr++ << 5` when bit5 is set; after the loop `input_ptr++`
consumes the fill value exactly once. -/
def fillOp (input : List Nat) (n b : Nat) (st : St) : St :=
  let st1 :=
    if b &&& 0x20 ≠ 0 then
      { st with ipos := st.ipos + 1, log := st.log ++ [Access.readI st.ipos] }
    else st
  let repetitions :=
    (b &&& 0x1F) + 2 +
      (if b &&& 0x20 ≠ 0 then (input.getD st.ipos 0) <<< 5 else 0)
  let st2 := fillLoop input n repetitions st1
  { st2 with ipos := st2.ipos + 1 }

/-- Back-reference copy inner loop: each iteration reads
`output_ptr[-look_behind]` (a read of the output buffer, before the
output-full check, exactly as in the source), then checks output-full and
writes. `Nat` subtraction clamps `opos - look` at 0; the C++ reads out of
bounds in that situation, which no claim covers (the log records input
reads and output writes only, mirroring the claims). -/
def lookLoop (n look : Nat) : Nat → St → St
  | 0, st => st
  | size + 1, st =>
    let tmp := st.out.getD (st.opos - look) 0
    if st.opos ≥ n then st
    else
      lookLoop n look size
        { out := st.out.set st.opos tmp
          opos := st.opos + 1
          ipos := st.ipos
          log := st.log ++ [Access.writeO st.opos] }

/-- Back-reference copy operation: `size = ((byte >> 2) & 0xF) + 2`,
`look_behind = ((byte & 3) << 8) + *input_ptr++ + 1`.  The source's
`if (look_behind < 0) look_behind = 0;` clamp is dead code (the computed
value is always ≥ 1) and disappears in the `Nat` model. -/
def lookOp (input : List Nat) (n b : Nat) (st : St) : St :=
  let size := ((b >>> 2) &&& 0xF) + 2
  let look := ((b &&& 3) <<< 8) + input.getD st.ipos 0 + 1
  let st1 := { st with ipos := st.ipos + 1, log := st.log ++ [Access.readI st.ipos] }
  lookLoop n look size st1

/-- Additive-blend inner loop over the window: `if (output_ptr >=
output_end) break; *output_ptr++ += input_ptr[i];` — `+=` on `u8` wraps
mod 256, and note that the output pointer advances with every byte
written. `base` is the input position of the window start, `i` the
current window index. -/
def blendInner (input : List Nat) (n base : Nat) : Nat → Nat → St → St
  | _, 0, st => st
  | i, rem + 1, st =>
    if st.opos ≥ n then st
    else
      blendInner input n base (i + 1) rem
        { out := st.out.set st.opos
            ((st.out.getD st.opos 0 + input.getD (base + i) 0) % 256)
          opos := st.opos + 1
          ipos := st.ipos
          log := st.log ++ [Access.readI (base + i), Access.writeO st.opos] }

/-- Additive-blend outer loop over the repetitions; the inner break only
leaves the inner loop, the outer loop keeps iterating (idly, once the
output is full), exactly as in the source. -/
def blendOuter (input : List Nat) (n base size : Nat) : Nat → St → St
  | 0, st => st
  | reps + 1, st => blendOuter input n base size reps (blendInner input n base 0 size st)

/-- Additive-blend operation: `repetitions = *input_ptr++ + 1`,
`size = (byte & 0x3F) + 2`, the double loop, then `input_ptr += size`
unconditionally. -/
def blendOp (input : List Nat) (n b : Nat) (st : St) : St :=
  let repetitions := input.getD st.ipos 0 + 1
  let size := (b &&& 0x3F) + 2
  let st1 := { st with ipos := st.ipos + 1, log := st.log ++ [Access.readI st.ipos] }
  let st2 := blendOuter input n st1.ipos size repetitions st1
  { st2 with ipos := st2.ipos + size }

/-- Literal-copy inner loop: `if (output_ptr >= output_end) break;
*output_ptr++ = *input_ptr++;` — both positions advance per byte. -/
def litLoop (input : List Nat) (n : Nat) : Nat → St → St
  | 0, st => st
  | size + 1, st =>
    if st.opos ≥ n then st
    else
      litLoop input n size
        { out := st.out.set st.opos (input.getD st.ipos 0)
          opos := st.opos + 1
          ipos := st.ipos + 1
          log := st.log ++ [Access.readI st.ipos, Access.writeO st.opos] }

/-- Literal-copy operation: `size = (byte & 0x1F) + 1`, plus
`*input_ptr++ << 5` when bit5 is set. -/
def litOp (input : List Nat) (n b : Nat) (st : St) : St :=
  let st1 :=
    if b &&& 0x20 ≠ 0 then
      { st with ipos := st.ipos + 1, log := st.log ++ [Access.readI st.ipos] }
    else st
  let size :=
    (b &&& 0x1F) + 1 +
      (if b &&& 0x20 ≠ 0 then (input.getD st.ipos 0) <<< 5 else 0)
  litLoop input n size st1

/-- Dispatch on the two high bits of the control byte `b` (already
consumed; `st.ipos` points just past it). -/
def execOp (input : List Nat) (n b : Nat) (st : St) : St :=
  if b &&& 0x80 ≠ 0 then
    if b &&& 0x40 ≠ 0 then fillOp input n b st else lookOp input n b st
  else
    if b &&& 0x40 ≠ 0 then blendOp input n b st else litOp input n b st

/-- Main decompression loop: `while (output_ptr < output_end && input_ptr
< input_end) { u8 byte = *input_ptr++; ... }`.  Fuel-indexed structural
recursion: every iteration consumes at least the control byte
(`ipos` strictly increases) and requires `ipos < input.length`, so with
fuel `input.length + 1` the fuel is never exhausted. -/
def loopF (input : List Nat) (n : Nat) : Nat → St → St
  | 0, st => st
  | f + 1, st =>
    if st.opos < n ∧ st.ipos < input.length then
      loopF input n f
        (execOp input n (input.getD st.ipos 0)
          { st with ipos := st.ipos + 1, log := st.log ++ [Access.readI st.ipos] })
    else st

/-- Run the decompression loop from the initial state: zero-initialized
output of length `size_orig` (`bstr output(size_orig)`), both positions 0. -/
def runLnd (input : List Nat) (size_orig : Nat) : St :=
  loopF input size_orig (input.length + 1)
    { out := List.replicate size_orig 0, opos := 0, ipos := 0, log := [] }

/-- `LndFileDecoder::decompress_raw_data`: the final output buffer is
returned whole, whatever was (or was not) written into it. -/
def decompress_raw_data (input : List Nat) (size_orig : Nat) : List Nat :=
  (runLnd input size_orig).out

/-- Well-formedness of an encoded LND input: the input decomposes into
complete control-byte-prefixed operations, each having its full byte span
present.  The per-operation spans follow the source exactly: a fill-run
needs the optional length-extension byte plus the fill value; a
back-reference needs the distance byte; an additive blend needs the
repetition byte plus a `(b & 0x3F) + 2`-byte window; a literal copy needs
the optional extension byte plus its (possibly extended) length in
payload bytes. -/
inductive WfOps : List Nat → Prop where
  | nil : WfOps []
  | fill (b v : Nat) (rest : List Nat) :
      b &&& 0x80 ≠ 0 → b &&& 0x40 ≠ 0 → b &&& 0x20 = 0 →
      WfOps rest → WfOps (b :: v :: rest)
  | fillExt (b e v : Nat) (rest : List Nat) :
      b &&& 0x80 ≠ 0 → b &&& 0x40 ≠ 0 → b &&& 0x20 ≠ 0 →
      WfOps rest → WfOps (b :: e :: v :: rest)
  | look (b d : Nat) (rest : List Nat) :
      b &&& 0x80 ≠ 0 → b &&& 0x40 = 0 →
      WfOps rest → WfOps (b :: d :: rest)
  | blend (b r : Nat) (w rest : List Nat) :
      b &&& 0x80 = 0 → b &&& 0x40 ≠ 0 → w.length = (b &&& 0x3F) + 2 →
      WfOps rest → WfOps (b :: r :: (w ++ rest))
  | lit (b : Nat) (w rest : List Nat) :
      b &&& 0x80 = 0 → b &&& 0x40 = 0 → b &&& 0x20 = 0 →
      w.length = (b &&& 0x1F) + 1 →
      WfOps rest → WfOps (b :: (w ++ rest))
  | litExt (b e : Nat) (w rest : List Nat) :
      b &&& 0x80 = 0 → b &&& 0x40 = 0 → b &&& 0x20 ≠ 0 →
      w.length = (b &&& 0x1F) + 1 + e <<< 5 →
      WfOps rest → WfOps (b :: e :: (w ++ rest))

/-- A logged access is in bounds: input reads stay below the input length,
output writes stay below the expected output size. -/
def okA (input : List Nat) (n : Nat) : Access → Bool
  | Access.readI i => decide (i < input.length)
  | Access.writeO i => decide (i < n)

/-- Little-endian 16-bit read at absolute position `p` of a byte list
(the binary cursor collaborator; reads past the end see byte 0). -/
def ru16 (l : List Nat) (p : Nat) : Nat :=
  l.getD p 0 + l.getD (p + 1) 0 * 256

/-- Little-endian 32-bit read at absolute position `p`. -/
def ru32 (l : List Nat) (p : Nat) : Nat :=
  l.getD p 0 + l.getD (p + 1) 0 * 256 + l.getD (p + 2) 0 * 65536 +
    l.getD (p + 3) 0 * 16777216

/-- Little-endian 64-bit read at absolute position `p`. -/
def ru64 (l : List Nat) (p : Nat) : Nat :=
  ru32 l p + ru32 l (p + 4) * 4294967296

/-- The LND magic: `"lnd\x00"`. -/
def lnd_magic : List Nat := [0x6C, 0x6E, 0x64, 0x00]

/-- `LndFileDecoder::is_recognized_impl`: the first 4 bytes of the file
equal the magic (a file shorter than the magic is not recognized). -/
def lnd_is_recognized (file : List Nat) : Bool := decide (file.take 4 = lnd_magic)

/-- `LndFileDecoder::decode_impl`: skip magic (4) and 4 reserved bytes,
read the original size as u32-le at offset 8, skip 4 more reserved bytes,
decompress the rest (from offset 16). -/
def lnd_decode_impl (file : List Nat) : List Nat :=
  decompress_raw_data (file.drop 16) (ru32 file 8)

/-- Result of a decode entry point: either the decoded bytes, or a
CorruptData failure. -/
inductive DecodeResult where
  | ok (data : List Nat)
  | corruptData
deriving DecidableEq, Repr

/-- Modelled from the spec: the framework `decode` entry point wrapping
`decode_impl` is not under src/ (only `decode_impl` and
`is_recognized_impl` are); per the spec, decode "Fails with CorruptData
if the signature does not match (recognition simply returns false)". -/
def lnd_decode (file : List Nat) : DecodeResult :=
  if lnd_is_recognized file then DecodeResult.ok (lnd_decode_impl file)
  else DecodeResult.corruptData

/-- XP3 errors thrown by the archive decoder: `err::CorruptDataError`
with its diagnostic message. -/
inductive XpErr where
  | corruptData (msg : String)
deriving DecidableEq, Repr

/-- The four-byte chunk tags of the XP3 table of contents. -/
def file_magic : List Nat := [0x46, 0x69, 0x6C, 0x65]

def info_magic : List Nat := [0x69, 0x6E, 0x66, 0x6F]

def segm_magic : List Nat := [0x73, 0x65, 0x67, 0x6D]

def adlr_magic : List Nat := [0x61, 0x64, 0x6C, 0x72]

/-- `detect_version`: remember the position, seek to absolute offset 19,
read a u32-le, version 2 exactly when it equals 1, restore the position.
Returns (version, restored position). -/
def detect_version (arc : List Nat) (pos : Nat) : Nat × Nat :=
  let old_pos := pos
  let version := if ru32 arc 19 = 1 then 2 else 1
  (version, old_pos)

/-- `get_table_offset`: version 1 reads the u64-le table offset directly;
version 2 reads a u64-le additional-header offset and a u32-le minor
version (which must be 1, else CorruptData "Unexpected XP3 version"),
seeks to the additional header, skips 1 flags byte and 8 size bytes, and
reads the u64-le table offset there.  Returns (table offset, cursor
position after the reads performed at `pos`). -/
def get_table_offset (arc : List Nat) (version pos : Nat) :
    Except XpErr (Nat × Nat) :=
  if version = 1 then Except.ok (ru64 arc pos, pos + 8)
  else
    let additional_header_offset := ru64 arc pos
    let minor_version := ru32 arc (pos + 8)
    if minor_version ≠ 1 then Except.error (XpErr.corruptData "Unexpected XP3 version")
    else Except.ok (ru64 arc (additional_header_offset + 9), pos + 12)

/-- The `info` sub-chunk payload of one XP3 entry (the name is kept as
the raw UTF-16LE bytes; text re-encoding is an external collaborator). -/
structure InfoChunk where
  flags : Nat
  file_size_original : Nat
  file_size_compressed : Nat
  name : List Nat
deriving DecidableEq, Repr

/-- `read_info_chunk`: `info` tag, u64-le chunk size (read but not used
to advance), u32-le flags, u64-le original size, u64-le compressed size,
u16-le character count, then `count * 2` bytes of UTF-16LE name.
Returns the chunk and the table position just past it. -/
def read_info_chunk (table : List Nat) (pos : Nat) :
    Except XpErr (InfoChunk × Nat) :=
  if (table.drop pos).take 4 ≠ info_magic then
    Except.error (XpErr.corruptData "Expected INFO chunk")
  else
    let p := pos + 12
    let flags := ru32 table p
    let file_size_original := ru64 table (p + 4)
    let file_size_compressed := ru64 table (p + 12)
    let file_name_size := ru16 table (p + 20)
    let name := (table.drop (p + 22)).take (file_name_size * 2)
    Except.ok
      ({ flags := flags, file_size_original := file_size_original,
         file_size_compressed := file_size_compressed, name := name },
       p + 22 + file_name_size * 2)

/-- The `segm` record loop: each 28-byte record is (u32-le flags, u64-le
archive offset, u64-le original size, u64-le compressed size); the
archive cursor is seeked to the offset and `compressed size` bytes are
read and inflated when `flags & 7` is nonzero, else `original size` raw
bytes are read; outputs are concatenated in record order.  `rp` is the
table position of the current record, `cnt` the number of records left
(the source loops `while (segm_chunk_size > tell - initial_pos)`,
consuming exactly 28 table bytes per iteration, hence `size / 28`
iterations once `size % 28 = 0` has been checked). -/
def segmLoop (inflate : List Nat → List Nat) (table arc : List Nat) :
    Nat → Nat → List Nat
  | _, 0 => []
  | rp, cnt + 1 =>
    (let segm_flags := ru32 table rp
     let data_offset := ru64 table (rp + 4)
     let data_size_original := ru64 table (rp + 12)
     let data_size_compressed := ru64 table (rp + 20)
     if segm_flags &&& 7 > 0 then
       inflate ((arc.drop data_offset).take data_size_compressed)
     else (arc.drop data_offset).take data_size_original) ++
      segmLoop inflate table arc (rp + 28) cnt

/-- `read_data_from_segm_chunk`: `segm` tag, u64-le chunk size which must
be a multiple of 28 (else CorruptData "Unexpected SEGM chunk size"), then
the record loop.  Returns the assembled data and the table position just
past the chunk. -/
def read_data_from_segm_chunk (inflate : List Nat → List Nat)
    (table arc : List Nat) (pos : Nat) : Except XpErr (List Nat × Nat) :=
  if (table.drop pos).take 4 ≠ segm_magic then
    Except.error (XpErr.corruptData "Expected SEGM chunk")
  else
    let segm_chunk_size := ru64 table (pos + 4)
    if segm_chunk_size % 28 ≠ 0 then
      Except.error (XpErr.corruptData "Unexpected SEGM chunk size")
    else
      Except.ok (segmLoop inflate table arc (pos + 12) (segm_chunk_size / 28),
        pos + 12 + segm_chunk_size)

/-- `read_key_from_adlr_chunk`: `adlr` tag, u64-le chunk size which must
equal 4, then the u32-le key. -/
def read_key_from_adlr_chunk (table : List Nat) (pos : Nat) :
    Except XpErr (Nat × Nat) :=
  if (table.drop pos).take 4 ≠ adlr_magic then
    Except.error (XpErr.corruptData "Expected ADLR chunk")
  else
    let adlr_chunk_size := ru64 table (pos + 4)
    if adlr_chunk_size ≠ 4 then
      Except.error (XpErr.corruptData "Unexpected ADLR chunk size")
    else Except.ok (ru32 table (pos + 12), pos + 16)

/-- One decoded XP3 entry: its (raw UTF-16LE) name and data. -/
structure XFile where
  name : List Nat
  data : List Nat
deriving DecidableEq, Repr

/-- `read_file`: `File` tag, u64-le declared entry length, then the INFO,
SEGM and ADLR sub-chunks in strict order; the table bytes they consumed
must equal the declared length exactly, else CorruptData "Unexpected file
data size"; finally the filter is applied to the data with the ADLR key.
Returns the entry and the table position just past it. -/
def read_file (inflate : List Nat → List Nat)
    (filter : List Nat → Nat → List Nat) (arc table : List Nat) (pos : Nat) :
    Except XpErr (XFile × Nat) :=
  if (table.drop pos).take 4 ≠ file_magic then
    Except.error (XpErr.corruptData "Expected FILE chunk")
  else
    let file_chunk_size := ru64 table (pos + 4)
    let file_chunk_start_offset := pos + 12
    match read_info_chunk table file_chunk_start_offset with
    | Except.error e => Except.error e
    | Except.ok (info_chunk, p1) =>
      match read_data_from_segm_chunk inflate table arc p1 with
      | Except.error e => Except.error e
      | Except.ok (data, p2) =>
        match read_key_from_adlr_chunk table p2 with
        | Except.error e => Except.error e
        | Except.ok (key, p3) =>
          if p3 - file_chunk_start_offset ≠ file_chunk_size then
            Except.error (XpErr.corruptData "Unexpected file data size")
          else Except.ok ({ name := info_chunk.name, data := filter data key }, p3)

/-- `Xp3FilterFsn::decode`: XOR every byte with 0x36; if the buffer is
longer than 0x2EA29 bytes additionally XOR the byte at 0x2EA29 with 3; if
longer than 0x13 bytes additionally XOR the byte at 0x13 with 1.  The key
parameter is ignored (unnamed in the source). -/
def fsn_decode (buf : List Nat) (_key : Nat) : List Nat :=
  let d := buf.map (fun x => x ^^^ 0x36)
  let d2 :=
    if buf.length > 0x2EA29 then d.set 0x2EA29 (d.getD 0x2EA29 0 ^^^ 3) else d
  if buf.length > 0x13 then d2.set 0x13 (d2.getD 0x13 0 ^^^ 1) else d2

/-- Modelled from the spec for comparison with the code (refinement check
for the additive-blend claim): the spec's reading of the additive blend,
where the window is added `repeat count` times onto the SAME span of
`block size` output bytes, the output position advancing by the block
size only once after all repeats, the input position by the block size
(plus the repetition byte). -/
def blendSameSpanOp (input : List Nat) (n b : Nat) (st : St) : St :=
  let repetitions := input.getD st.ipos 0 + 1
  let size := (b &&& 0x3F) + 2
  let base := st.ipos + 1
  let out :=
    (List.range size).foldl
      (fun o i =>
        if st.opos + i < n then
          o.set (st.opos + i)
            ((o.getD (st.opos + i) 0 + repetitions * input.getD (base + i) 0) % 256)
        else o)
      st.out
  { out := out, opos := min (st.opos + size) n, ipos := base + size,
    log := st.log }

/-- The data contributed by the `segm` record at table position `rp`
(used to state the segment-assembly theorem in closed form). -/
def segData (inflate : List Nat → List Nat) (table arc : List Nat) (rp : Nat) :
    List Nat :=
  if ru32 table rp &&& 7 > 0 then
    inflate ((arc.drop (ru64 table (rp + 4))).take (ru64 table (rp + 20)))
  else (arc.drop (ru64 table (rp + 4))).take (ru64 table (rp + 12))

/-! ### Basic list helpers -/

theorem getD_set_ne (l : List Nat) (j i v : Nat) (h : i ≠ j) :
    (l.set j v).getD i 0 = l.getD i 0 := by
  simp [List.getD_eq_getElem?_getD, List.getElem?_set_ne (Ne.symm h)]

theorem getD_set_self (l : List Nat) (j v : Nat) (h : j < l.length) :
    (l.set j v).getD j 0 = v := by
  simp [List.getD_eq_getElem?_getD, List.getElem?_set_eq_of_lt v h]

theorem getD_replicate (n i : Nat) : (List.replicate n (0 : Nat)).getD i 0 = 0 := by
  rcases Nat.lt_or_ge i n with h | h
  · simp [List.getD_eq_getElem?_getD, List.getElem?_replicate, h]
  · have hnone : (List.replicate n (0 : Nat))[i]? = none :=
      List.getElem?_eq_none (by simpa using h)
    simp [List.getD_eq_getElem?_getD, hnone]

/-! ### Fill-run loop characterization -/

theorem fillLoop_spec (input : List Nat) (n : Nat) :
    ∀ (reps : Nat) (st : St), st.out.length = n →
      (fillLoop input n reps st).out.length = n ∧
      (fillLoop input n reps st).ipos = st.ipos ∧
      (fillLoop input n reps st).opos = st.opos + min reps (n - st.opos) ∧
      (∀ j, j < min reps (n - st.opos) →
        (fillLoop input n reps st).out.getD (st.opos + j) 0 = input.getD st.ipos 0) ∧
      (∀ p, p < st.opos ∨ st.opos + min reps (n - st.opos) ≤ p →
        (fillLoop input n reps st).out.getD p 0 = st.out.getD p 0) := by
  intro reps
  induction reps with
  | zero =>
    intro st h
    have hstep : fillLoop input n 0 st = st := rfl
    rw [hstep]
    refine ⟨h, rfl, by omega, ?_, ?_⟩
    · intro j hj; omega
    · intro p _; rfl
  | succ r ih =>
    intro st h
    by_cases hfull : st.opos ≥ n
    · have hstep : fillLoop input n (r + 1) st = st := by
        simp [fillLoop, if_pos hfull]
      rw [hstep]
      have hmin : min (r + 1) (n - st.opos) = 0 := by omega
      refine ⟨h, rfl, by omega, ?_, ?_⟩
      · intro j hj; omega
      · intro p _; rfl
    · have hlt : st.opos < n := by omega
      set st' : St :=
        { out := st.out.set st.opos (input.getD st.ipos 0)
          opos := st.opos + 1
          ipos := st.ipos
          log := st.log ++ [Access.readI st.ipos, Access.writeO st.opos] } with hst'
      have hstep : fillLoop input n (r + 1) st = fillLoop input n r st' := by
        simp [fillLoop, if_neg hfull, hst']
      rw [hstep]
      have h' : st'.out.length = n := by simp [hst', h]
      obtain ⟨L, I, O, V, F⟩ := ih st' h'
      have hmin : min (r + 1) (n - st.opos) = min r (n - (st.opos + 1)) + 1 := by omega
      have hips : st'.ipos = st.ipos := by simp [hst']
      have hops : st'.opos = st.opos + 1 := by simp [hst']
      refine ⟨L, by rw [I, hips], ?_, ?_, ?_⟩
      · rw [O, hops]; omega
      · intro j hj
        match j with
        | 0 =>
          have hf := F st.opos (Or.inl (by omega))
          rw [Nat.add_zero, hf]
          show (st.out.set st.opos (input.getD st.ipos 0)).getD st.opos 0 = _
          exact getD_set_self st.out st.opos _ (by omega)
        | j2 + 1 =>
          have hv := V j2 (by omega)
          have e : st.opos + (j2 + 1) = st'.opos + j2 := by omega
          rw [e, hv, hips]
      · intro p hp
        have hf := F p (by omega)
        rw [hf]
        show (st.out.set st.opos (input.getD st.ipos 0)).getD p 0 = _
        exact getD_set_ne st.out st.opos p _ (by omega)

/-! ### Literal-copy loop characterization -/

theorem litLoop_spec (input : List Nat) (n : Nat) :
    ∀ (size : Nat) (st : St),
      (litLoop input n size st).out.length = st.out.length ∧
      (litLoop input n size st).ipos = st.ipos + min size (n - st.opos) ∧
      (litLoop input n size st).opos = st.opos + min size (n - st.opos) := by
  intro size
  induction size with
  | zero =>
    intro st
    have hstep : litLoop input n 0 st = st := rfl
    rw [hstep]
    exact ⟨rfl, by omega, by omega⟩
  | succ s ih =>
    intro st
    by_cases hfull : st.opos ≥ n
    · have hstep : litLoop input n (s + 1) st = st := by
        simp [litLoop, if_pos hfull]
      rw [hstep]
      exact ⟨rfl, by omega, by omega⟩
    · set st' : St :=
        { out := st.out.set st.opos (input.getD st.ipos 0)
          opos := st.opos + 1
          ipos := st.ipos + 1
          log := st.log ++ [Access.readI st.ipos, Access.writeO st.opos] } with hst'
      have hstep : litLoop input n (s + 1) st = litLoop input n s st' := by
        simp [litLoop, if_neg hfull, hst']
      rw [hstep]
      obtain ⟨L, I, O⟩ := ih st'
      have hips : st'.ipos = st.ipos + 1 := by simp [hst']
      have hops : st'.opos = st.opos + 1 := by simp [hst']
      have hlen : st'.out.length = st.out.length := by simp [hst']
      exact ⟨by rw [L, hlen], by rw [I]; omega, by rw [O]; omega⟩

/-! ### Back-reference loop basic facts -/

theorem lookLoop_basic (n look : Nat) :
    ∀ (size : Nat) (st : St),
      (lookLoop n look size st).out.length = st.out.length ∧
      (lookLoop n look size st).ipos = st.ipos := by
  intro size
  induction size with
  | zero => intro st; exact ⟨rfl, rfl⟩
  | succ s ih =>
    intro st
    by_cases hfull : st.opos ≥ n
    · have hstep : lookLoop n look (s + 1) st = st := by
        simp [lookLoop, if_pos hfull]
      rw [hstep]
      exact ⟨rfl, rfl⟩
    · set st' : St :=
        { out := st.out.set st.opos (st.out.getD (st.opos - look) 0)
          opos := st.opos + 1
          ipos := st.ipos
          log := st.log ++ [Access.writeO st.opos] } with hst'
      have hstep : lookLoop n look (s + 1) st = lookLoop n look s st' := by
        simp [lookLoop, if_neg hfull, hst']
      rw [hstep]
      obtain ⟨L, I⟩ := ih st'
      exact ⟨by rw [L]; simp [hst'], by rw [I]⟩

/-! ### Additive-blend loop characterization -/

theorem blendInner_spec (input : List Nat) (n base : Nat) :
    ∀ (rem i : Nat) (st : St), st.out.length = n →
      (blendInner input n base i rem st).out.length = n ∧
      (blendInner input n base i rem st).ipos = st.ipos ∧
      (blendInner input n base i rem st).opos = st.opos + min rem (n - st.opos) ∧
      (∀ j, j < min rem (n - st.opos) →
        (blendInner input n base i rem st).out.getD (st.opos + j) 0 =
          (st.out.getD (st.opos + j) 0 + input.getD (base + i + j) 0) % 256) ∧
      (∀ p, p < st.opos ∨ st.opos + min rem (n - st.opos) ≤ p →
        (blendInner input n base i rem st).out.getD p 0 = st.out.getD p 0) := by
  intro rem
  induction rem with
  | zero =>
    intro i st h
    have hstep : blendInner input n base i 0 st = st := rfl
    rw [hstep]
    refine ⟨h, rfl, by omega, ?_, ?_⟩
    · intro j hj; omega
    · intro p _; rfl
  | succ r ih =>
    intro i st h
    by_cases hfull : st.opos ≥ n
    · have hstep : blendInner input n base i (r + 1) st = st := by
        simp [blendInner, if_pos hfull]
      rw [hstep]
      have hmin : min (r + 1) (n - st.opos) = 0 := by omega
      refine ⟨h, rfl, by omega, ?_, ?_⟩
      · intro j hj; omega
      · intro p _; rfl
    · have hlt : st.opos < n := by omega
      set st' : St :=
        { out := st.out.set st.opos
            ((st.out.getD st.opos 0 + input.getD (base + i) 0) % 256)
          opos := st.opos + 1
          ipos := st.ipos
          log := st.log ++ [Access.readI (base + i), Access.writeO st.opos] } with hst'
      have hstep : blendInner input n base i (r + 1) st = blendInner input n base (i + 1) r st' := by
        simp [blendInner, if_neg hfull, hst']
      rw [hstep]
      have h' : st'.out.length = n := by simp [hst', h]
      obtain ⟨L, I, O, V, F⟩ := ih (i + 1) st' h'
      have hips : st'.ipos = st.ipos := by simp [hst']
      have hops : st'.opos = st.opos + 1 := by simp [hst']
      have hmin : min (r + 1) (n - st.opos) = min r (n - (st.opos + 1)) + 1 := by omega
      refine ⟨L, by rw [I, hips], by rw [O, hops]; omega, ?_, ?_⟩
      · intro j hj
        match j with
        | 0 =>
          have hf := F st.opos (Or.inl (by omega))
          simp only [Nat.add_zero]
          rw [hf]
          show (st.out.set st.opos _).getD st.opos 0 = _
          exact getD_set_self st.out st.opos _ (by omega)
        | j2 + 1 =>
          have hv := V j2 (by omega)
          have e : st.opos + (j2 + 1) = st'.opos + j2 := by omega
          have e2 : st'.out.getD (st'.opos + j2) 0 = st.out.getD (st'.opos + j2) 0 := by
            show (st.out.set st.opos _).getD (st'.opos + j2) 0 = _
            exact getD_set_ne st.out st.opos _ _ (by omega)
          have e3 : base + (i + 1) + j2 = base + i + (j2 + 1) := by omega
          rw [e, hv, e2, e3]
      · intro p hp
        have hf := F p (by omega)
        rw [hf]
        show (st.out.set st.opos _).getD p 0 = _
        exact getD_set_ne st.out st.opos p _ (by omega)

theorem blendOuter_spec (input : List Nat) (n base size : Nat) :
    ∀ (reps : Nat) (st : St), st.out.length = n → st.opos ≤ n →
      (blendOuter input n base size reps st).out.length = n ∧
      (blendOuter input n base size reps st).ipos = st.ipos ∧
      (blendOuter input n base size reps st).opos = min (st.opos + reps * size) n ∧
      (∀ q, q < min (reps * size) (n - st.opos) →
        (blendOuter input n base size reps st).out.getD (st.opos + q) 0 =
          (st.out.getD (st.opos + q) 0 + input.getD (base + q % size) 0) % 256) ∧
      (∀ p, p < st.opos →
        (blendOuter input n base size reps st).out.getD p 0 = st.out.getD p 0) := by
  intro reps
  induction reps with
  | zero =>
    intro st h hop
    have hstep : blendOuter input n base size 0 st = st := rfl
    rw [hstep]
    refine ⟨h, rfl, by omega, ?_, ?_⟩
    · intro q hq; omega
    · intro p _; rfl
  | succ r ih =>
    intro st h hop
    obtain ⟨LI, II, OI, VI, FI⟩ := blendInner_spec input n base size 0 st h
    set stI := blendInner input n base 0 size st with hstI
    have hstep : blendOuter input n base size (r + 1) st =
        blendOuter input n base size r stI := rfl
    rw [hstep]
    have hopI : stI.opos ≤ n := by omega
    obtain ⟨LO, IP, OO, VO, FO⟩ := ih stI LI hopI
    have hmul : (r + 1) * size = r * size + size := by
      rw [Nat.succ_mul]
    refine ⟨LO, by rw [IP, II], ?_, ?_, ?_⟩
    · rw [OO, hmul]; omega
    · intro q hq
      rw [hmul] at hq
      by_cases hcase : q < min size (n - st.opos)
      · have hpos : st.opos + q < stI.opos := by omega
        have hfo := FO (st.opos + q) hpos
        rw [hfo]
        have hvi := VI q hcase
        rw [hvi]
        have e : base + 0 + q = base + q % size := by
          rw [Nat.mod_eq_of_lt (by omega)]
          omega
        rw [e]
      · have hk1 : min size (n - st.opos) = size := by omega
        have hq' : q - size < min (r * size) (n - stI.opos) := by omega
        have hvo := VO (q - size) hq'
        have e1 : stI.opos + (q - size) = st.opos + q := by omega
        rw [e1] at hvo
        rw [hvo]
        have e2 : stI.out.getD (st.opos + q) 0 = st.out.getD (st.opos + q) 0 := by
          exact FI (st.opos + q) (Or.inr (by omega))
        rw [e2]
        have e3 : (q - size) % size = q % size := by
          conv_rhs => rw [show q = q - size + size from by omega]
          rw [Nat.add_mod_right]
        rw [e3]
    · intro p hp
      have hfo := FO p (by omega)
      rw [hfo]
      exact FI p (Or.inl hp)

/-! ### Length preservation -/

theorem fillLoop_len (input : List Nat) (n : Nat) :
    ∀ (reps : Nat) (st : St), (fillLoop input n reps st).out.length = st.out.length := by
  intro reps
  induction reps with
  | zero => intro st; rfl
  | succ r ih =>
    intro st
    by_cases hfull : st.opos ≥ n
    · simp [fillLoop, if_pos hfull]
    · rw [show fillLoop input n (r + 1) st = fillLoop input n r
        { out := st.out.set st.opos (input.getD st.ipos 0)
          opos := st.opos + 1
          ipos := st.ipos
          log := st.log ++ [Access.readI st.ipos, Access.writeO st.opos] } from by
          simp [fillLoop, if_neg hfull]]
      rw [ih]
      simp

theorem lookLoop_len (n look : Nat) :
    ∀ (size : Nat) (st : St), (lookLoop n look size st).out.length = st.out.length :=
  fun size st => (lookLoop_basic n look size st).1

theorem litLoop_len (input : List Nat) (n : Nat) :
    ∀ (size : Nat) (st : St), (litLoop input n size st).out.length = st.out.length :=
  fun size st => (litLoop_spec input n size st).1

theorem blendInner_len (input : List Nat) (n base : Nat) :
    ∀ (rem i : Nat) (st : St), (blendInner input n base i rem st).out.length = st.out.length := by
  intro rem
  induction rem with
  | zero => intro i st; rfl
  | succ r ih =>
    intro i st
    by_cases hfull : st.opos ≥ n
    · simp [blendInner, if_pos hfull]
    · rw [show blendInner input n base i (r + 1) st = blendInner input n base (i + 1) r
        { out := st.out.set st.opos
            ((st.out.getD st.opos 0 + input.getD (base + i) 0) % 256)
          opos := st.opos + 1
          ipos := st.ipos
          log := st.log ++ [Access.readI (base + i), Access.writeO st.opos] } from by
          simp [blendInner, if_neg hfull]]
      rw [ih]
      simp

theorem blendOuter_len (input : List Nat) (n base size : Nat) :
    ∀ (reps : Nat) (st : St), (blendOuter input n base size reps st).out.length = st.out.length := by
  intro reps
  induction reps with
  | zero => intro st; rfl
  | succ r ih =>
    intro st
    rw [show blendOuter input n base size (r + 1) st =
      blendOuter input n base size r (blendInner input n base 0 size st) from rfl]
    rw [ih, blendInner_len]

theorem execOp_len (input : List Nat) (n b : Nat) (st : St) :
    (execOp input n b st).out.length = st.out.length := by
  unfold execOp fillOp lookOp blendOp litOp
  by_cases h80 : b &&& 0x80 ≠ 0 <;> by_cases h40 : b &&& 0x40 ≠ 0 <;>
    by_cases h20 : b &&& 0x20 ≠ 0 <;>
    simp [h80, h40, h20, fillLoop_len, lookLoop_len, litLoop_len, blendOuter_len]

theorem loopF_len (input : List Nat) (n : Nat) :
    ∀ (f : Nat) (st : St), (loopF input n f st).out.length = st.out.length := by
  intro f
  induction f with
  | zero => intro st; rfl
  | succ f ih =>
    intro st
    by_cases hc : st.opos < n ∧ st.ipos < input.length
    · rw [show loopF input n (f + 1) st = loopF input n f
        (execOp input n (input.getD st.ipos 0)
          { st with ipos := st.ipos + 1, log := st.log ++ [Access.readI st.ipos] }) from by
          simp [loopF, if_pos hc]]
      rw [ih, execOp_len]
    · simp [loopF, if_neg hc]

/-! ### Claim C2 (amended) and C2 counterexample -/

/-- C2 (amended): `decompress_raw_data` always returns a buffer of exactly
`expected_output_size` bytes — also when the input is exhausted before the
output is full (the zero-initialized buffer is allocated up front and
returned whole; truncation shortens what gets written, never the returned
length). -/
theorem lnd_output_length_exact :
    ∀ (input : List Nat) (n : Nat), (decompress_raw_data input n).length = n := by
  intro input n
  unfold decompress_raw_data runLnd
  rw [loopF_len]
  simp

/-- C2 counterexample: on input `[0x00, 0xAA]` (a single literal-copy
operation of one byte) with expected output size 3, the input is exhausted
(final input position 2 = input length) while the output is not full
(final output position 1 < 3), yet the returned buffer still has length 3 —
not strictly fewer bytes as the claim states. -/
theorem lnd_length_counterexample :
    (runLnd [0, 170] 3).ipos = 2 ∧ (runLnd [0, 170] 3).opos = 1 ∧
    (decompress_raw_data [0, 170] 3).length = 3 ∧
    ¬ (decompress_raw_data [0, 170] 3).length < 3 := by decide

/-! ### Additive-blend operation characterization and claim C1 -/

theorem blendOp_spec (input : List Nat) (n b : Nat) (st : St)
    (h : st.out.length = n) (hop : st.opos ≤ n) :
    (blendOp input n b st).ipos = st.ipos + 1 + ((b &&& 0x3F) + 2) ∧
    (blendOp input n b st).out.length = n ∧
    (blendOp input n b st).opos =
      min (st.opos + (input.getD st.ipos 0 + 1) * ((b &&& 0x3F) + 2)) n ∧
    (∀ q, q < min ((input.getD st.ipos 0 + 1) * ((b &&& 0x3F) + 2)) (n - st.opos) →
      (blendOp input n b st).out.getD (st.opos + q) 0 =
        (st.out.getD (st.opos + q) 0 +
          input.getD (st.ipos + 1 + q % ((b &&& 0x3F) + 2)) 0) % 256) := by
  set st1 : St := { st with ipos := st.ipos + 1, log := st.log ++ [Access.readI st.ipos] }
    with hst1
  have hstep : blendOp input n b st =
      { blendOuter input n (st.ipos + 1) ((b &&& 0x3F) + 2) (input.getD st.ipos 0 + 1) st1 with
        ipos :=
          (blendOuter input n (st.ipos + 1) ((b &&& 0x3F) + 2)
            (input.getD st.ipos 0 + 1) st1).ipos + ((b &&& 0x3F) + 2) } := rfl
  obtain ⟨LO, IP, OO, VO, FO⟩ :=
    blendOuter_spec input n (st.ipos + 1) ((b &&& 0x3F) + 2) (input.getD st.ipos 0 + 1) st1
      (by simp [hst1, h]) (by simp [hst1]; omega)
  have h1i : st1.ipos = st.ipos + 1 := by simp [hst1]
  have h1o : st1.opos = st.opos := by simp [hst1]
  have h1u : st1.out = st.out := by simp [hst1]
  rw [hstep]
  refine ⟨?_, ?_, ?_, ?_⟩
  · show (blendOuter input n (st.ipos + 1) ((b &&& 0x3F) + 2)
      (input.getD st.ipos 0 + 1) st1).ipos + ((b &&& 0x3F) + 2) = _
    rw [IP, h1i]
  · show (blendOuter input n (st.ipos + 1) ((b &&& 0x3F) + 2)
      (input.getD st.ipos 0 + 1) st1).out.length = n
    exact LO
  · show (blendOuter input n (st.ipos + 1) ((b &&& 0x3F) + 2)
      (input.getD st.ipos 0 + 1) st1).opos = _
    rw [OO, h1o]
  · intro q hq
    have hv := VO q (by rw [h1o]; exact hq)
    rw [h1o, h1u] at hv
    exact hv

/-- C1 (amended): for the additive-blend operation (control byte with
bit7=0, bit6=1), the window of `(byte & 0x3F) + 2` input bytes is added
byte-for-byte onto SUCCESSIVE spans of output bytes, the output position
advancing with every byte written — one fresh span of `block size` bytes
per repeat, `repeat count * block size` in total (clamped at the output
end) — not onto the same span with a single advance: the `q`-th byte
written lands at output offset `q` past the starting position and adds
window byte `q mod block size`.  The input position advances by
`1 + block size` (repetition byte plus window), once, after all repeats. -/
theorem lnd_blend_successive_spans (input : List Nat) (n b : Nat) (st : St)
    (hb7 : b &&& 0x80 = 0) (hb6 : b &&& 0x40 ≠ 0)
    (h : st.out.length = n) (hop : st.opos ≤ n) :
    (execOp input n b st).ipos = st.ipos + 1 + ((b &&& 0x3F) + 2) ∧
    (execOp input n b st).opos =
      min (st.opos + (input.getD st.ipos 0 + 1) * ((b &&& 0x3F) + 2)) n ∧
    (∀ q, q < min ((input.getD st.ipos 0 + 1) * ((b &&& 0x3F) + 2)) (n - st.opos) →
      (execOp input n b st).out.getD (st.opos + q) 0 =
        (st.out.getD (st.opos + q) 0 +
          input.getD (st.ipos + 1 + q % ((b &&& 0x3F) + 2)) 0) % 256) := by
  have hexec : execOp input n b st = blendOp input n b st := by
    simp [execOp, hb7, hb6]
  obtain ⟨I, L, O, V⟩ := blendOp_spec input n b st h hop
  rw [hexec]
  exact ⟨I, O, V⟩

/-- C1 witness: the amended claim applied to the concrete blend operation
`[0x40, 0x01, 0x05, 0x06]` (block size 2, repeat count 2, window
`[5, 6]`) writing into a 10-byte output from position 0; the value clause
is instantiated at written-byte offset 3 (second repeat, second window
byte). -/
theorem lnd_blend_successive_spans_witness :
    ((64 : Nat) &&& 0x80 = 0) ∧ ((64 : Nat) &&& 0x40 ≠ 0) ∧
    (execOp [64, 1, 5, 6] 10 64 ⟨List.replicate 10 0, 0, 1, []⟩).ipos =
      1 + 1 + ((64 &&& 0x3F) + 2) ∧
    (execOp [64, 1, 5, 6] 10 64 ⟨List.replicate 10 0, 0, 1, []⟩).opos =
      min (0 + ([64, 1, 5, 6].getD 1 0 + 1) * ((64 &&& 0x3F) + 2)) 10 ∧
    (execOp [64, 1, 5, 6] 10 64 ⟨List.replicate 10 0, 0, 1, []⟩).out.getD (0 + 3) 0 =
      ((List.replicate 10 0).getD (0 + 3) 0 +
        [64, 1, 5, 6].getD (1 + 1 + 3 % ((64 &&& 0x3F) + 2)) 0) % 256 :=
  ⟨by decide, by decide,
    (lnd_blend_successive_spans [64, 1, 5, 6] 10 64
      ⟨List.replicate 10 0, 0, 1, []⟩ (by decide) (by decide) (by decide) (by decide)).1,
    (lnd_blend_successive_spans [64, 1, 5, 6] 10 64
      ⟨List.replicate 10 0, 0, 1, []⟩ (by decide) (by decide) (by decide) (by decide)).2.1,
    (lnd_blend_successive_spans [64, 1, 5, 6] 10 64
      ⟨List.replicate 10 0, 0, 1, []⟩ (by decide) (by decide) (by decide) (by decide)).2.2 3
      (by decide)⟩

/-- C1 counterexample: on the single blend operation
`[0x40, 0x01, 0x05, 0x06]` (repeat count 2, block size 2, window
`[5, 6]`) the code writes the window onto two successive spans — output
`[5, 6, 5, 6]`, output position advanced by 4 — whereas the claim's
same-span semantics (`blendSameSpanOp`, modelled from the spec text)
would add the window twice onto the same two bytes — output
`[10, 12, 0, 0]`, output position advanced by 2. -/
theorem lnd_blend_counterexample :
    decompress_raw_data [64, 1, 5, 6] 4 = [5, 6, 5, 6] ∧
    (execOp [64, 1, 5, 6] 4 64 ⟨List.replicate 4 0, 0, 1, []⟩).opos = 4 ∧
    (blendSameSpanOp [64, 1, 5, 6] 4 64 ⟨List.replicate 4 0, 0, 1, []⟩).opos = 2 ∧
    (blendSameSpanOp [64, 1, 5, 6] 4 64 ⟨List.replicate 4 0, 0, 1, []⟩).out = [10, 12, 0, 0] ∧
    (execOp [64, 1, 5, 6] 4 64 ⟨List.replicate 4 0, 0, 1, []⟩).out ≠
      (blendSameSpanOp [64, 1, 5, 6] 4 64 ⟨List.replicate 4 0, 0, 1, []⟩).out := by
  decide

/-! ### Fill-run operation characterization and claim C8 -/

theorem fillOp_spec (input : List Nat) (n b : Nat) (st : St) (h : st.out.length = n) :
    (fillOp input n b st).ipos = st.ipos + (if b &&& 0x20 ≠ 0 then 2 else 1) ∧
    (fillOp input n b st).out.length = n ∧
    (fillOp input n b st).opos = st.opos +
      min ((b &&& 0x1F) + 2 + (if b &&& 0x20 ≠ 0 then input.getD st.ipos 0 <<< 5 else 0))
        (n - st.opos) ∧
    (∀ j, j < min ((b &&& 0x1F) + 2 +
        (if b &&& 0x20 ≠ 0 then input.getD st.ipos 0 <<< 5 else 0)) (n - st.opos) →
      (fillOp input n b st).out.getD (st.opos + j) 0 =
        input.getD (st.ipos + (if b &&& 0x20 ≠ 0 then 1 else 0)) 0) := by
  by_cases h20 : b &&& 0x20 ≠ 0
  · set st1 : St := { st with ipos := st.ipos + 1, log := st.log ++ [Access.readI st.ipos] }
      with hst1
    have hstep : fillOp input n b st =
        { fillLoop input n ((b &&& 0x1F) + 2 + input.getD st.ipos 0 <<< 5) st1 with
          ipos := (fillLoop input n ((b &&& 0x1F) + 2 + input.getD st.ipos 0 <<< 5) st1).ipos
            + 1 } := by
      simp only [fillOp, if_pos h20]
    obtain ⟨L, I, O, V, F⟩ :=
      fillLoop_spec input n ((b &&& 0x1F) + 2 + input.getD st.ipos 0 <<< 5) st1
        (by simp [hst1, h])
    have h1i : st1.ipos = st.ipos + 1 := by simp [hst1]
    have h1o : st1.opos = st.opos := by simp [hst1]
    rw [hstep]
    refine ⟨?_, L, ?_, ?_⟩
    · show (fillLoop input n ((b &&& 0x1F) + 2 + input.getD st.ipos 0 <<< 5) st1).ipos + 1 = _
      rw [I, h1i, if_pos h20]
    · show (fillLoop input n ((b &&& 0x1F) + 2 + input.getD st.ipos 0 <<< 5) st1).opos = _
      rw [O, h1o, if_pos h20]
    · intro j hj
      rw [if_pos h20] at hj ⊢
      have hv := V j (by rw [h1o]; exact hj)
      rw [h1o, h1i] at hv
      exact hv
  · have hstep : fillOp input n b st =
        { fillLoop input n ((b &&& 0x1F) + 2 + 0) st with
          ipos := (fillLoop input n ((b &&& 0x1F) + 2 + 0) st).ipos + 1 } := by
      simp only [fillOp, if_neg h20]
    obtain ⟨L, I, O, V, F⟩ := fillLoop_spec input n ((b &&& 0x1F) + 2 + 0) st h
    rw [hstep]
    refine ⟨?_, L, ?_, ?_⟩
    · show (fillLoop input n ((b &&& 0x1F) + 2 + 0) st).ipos + 1 = _
      rw [I, if_neg h20]
    · show (fillLoop input n ((b &&& 0x1F) + 2 + 0) st).opos = _
      rw [O, if_neg h20]
    · intro j hj
      rw [if_neg h20] at hj ⊢
      have hv := V j hj
      simpa using hv

/-- C8: for a fill-run operation (control byte with bit7=1, bit6=1), the
input position advances by exactly one byte for the fill value, plus one
earlier byte for the length extension when bit5 is set — independently of
how many of the `(byte & 0x1F) + 2 (+ ext << 5)` copies were actually
written (the write count is clamped by the remaining output room, the
input advance is not); every written byte is the fill value read at the
current input position. -/
theorem lnd_fill_run_input_advance (input : List Nat) (n b : Nat) (st : St)
    (hb7 : b &&& 0x80 ≠ 0) (hb6 : b &&& 0x40 ≠ 0) (h : st.out.length = n) :
    (execOp input n b st).ipos = st.ipos + (if b &&& 0x20 ≠ 0 then 2 else 1) ∧
    (execOp input n b st).opos = st.opos +
      min ((b &&& 0x1F) + 2 + (if b &&& 0x20 ≠ 0 then input.getD st.ipos 0 <<< 5 else 0))
        (n - st.opos) ∧
    (∀ j, j < min ((b &&& 0x1F) + 2 +
        (if b &&& 0x20 ≠ 0 then input.getD st.ipos 0 <<< 5 else 0)) (n - st.opos) →
      (execOp input n b st).out.getD (st.opos + j) 0 =
        input.getD (st.ipos + (if b &&& 0x20 ≠ 0 then 1 else 0)) 0) := by
  have hexec : execOp input n b st = fillOp input n b st := by
    simp [execOp, hb7, hb6]
  obtain ⟨I, L, O, V⟩ := fillOp_spec input n b st h
  rw [hexec]
  exact ⟨I, O, V⟩

/-- C8 witness: control byte `0xC3` (bit7=1, bit6=1, bit5=0, run length
`(0xC3 & 0x1F) + 2 = 5`) followed by fill value `0xFF`, output size 5:
five `0xFF` bytes are written (the value clause is instantiated at offset
4) and the input position lands at 2 — exactly one byte past the fill
value, as the end-to-end run `decompress_raw_data [0xC3, 0xFF] 5 =
[255, 255, 255, 255, 255]` with final input position 2 also shows. -/
theorem lnd_fill_run_input_advance_witness :
    ((195 : Nat) &&& 0x80 ≠ 0) ∧ ((195 : Nat) &&& 0x40 ≠ 0) ∧
    (execOp [195, 255] 5 195 ⟨List.replicate 5 0, 0, 1, []⟩).ipos =
      1 + (if (195 : Nat) &&& 0x20 ≠ 0 then 2 else 1) ∧
    (execOp [195, 255] 5 195 ⟨List.replicate 5 0, 0, 1, []⟩).out.getD (0 + 4) 0 =
      [195, 255].getD (1 + (if (195 : Nat) &&& 0x20 ≠ 0 then 1 else 0)) 0 ∧
    decompress_raw_data [195, 255] 5 = [255, 255, 255, 255, 255] ∧
    (runLnd [195, 255] 5).ipos = 2 :=
  ⟨by decide, by decide,
    (lnd_fill_run_input_advance [195, 255] 5 195 ⟨List.replicate 5 0, 0, 1, []⟩
      (by decide) (by decide) (by decide)).1,
    (lnd_fill_run_input_advance [195, 255] 5 195 ⟨List.replicate 5 0, 0, 1, []⟩
      (by decide) (by decide) (by decide)).2.2 4 (by decide),
    by decide, by decide⟩

/-! ### Zero-initialization: every nonzero output byte has a logged write -/

/-- Every output position currently holding a nonzero byte has a write
recorded in the log. -/
def Cov (st : St) : Prop := ∀ i, st.out.getD i 0 ≠ 0 → Access.writeO i ∈ st.log

theorem cov_mono (st st' : St) (hout : st'.out = st.out)
    (hlog : ∀ a ∈ st.log, a ∈ st'.log) (hc : Cov st) : Cov st' := by
  intro i hi
  rw [hout] at hi
  exact hlog _ (hc i hi)

theorem cov_set (st st' : St) (v : Nat) (hout : st'.out = st.out.set st.opos v)
    (hlog : ∀ a ∈ st.log, a ∈ st'.log) (hw : Access.writeO st.opos ∈ st'.log)
    (hc : Cov st) : Cov st' := by
  intro i hi
  rw [hout] at hi
  by_cases hij : i = st.opos
  · subst hij; exact hw
  · rw [getD_set_ne _ _ _ _ hij] at hi
    exact hlog _ (hc i hi)

theorem fillLoop_cov (input : List Nat) (n : Nat) :
    ∀ (reps : Nat) (st : St), Cov st → Cov (fillLoop input n reps st) := by
  intro reps
  induction reps with
  | zero => intro st hc; exact hc
  | succ r ih =>
    intro st hc
    by_cases hfull : st.opos ≥ n
    · rw [show fillLoop input n (r + 1) st = st from by simp [fillLoop, if_pos hfull]]
      exact hc
    · rw [show fillLoop input n (r + 1) st = fillLoop input n r
        { out := st.out.set st.opos (input.getD st.ipos 0)
          opos := st.opos + 1
          ipos := st.ipos
          log := st.log ++ [Access.readI st.ipos, Access.writeO st.opos] } from by
          simp [fillLoop, if_neg hfull]]
      refine ih _ (cov_set st _ _ rfl ?_ ?_ hc)
      · intro a ha; exact List.mem_append_left _ ha
      · exact List.mem_append_right _ (by simp)

theorem lookLoop_cov (n look : Nat) :
    ∀ (size : Nat) (st : St), Cov st → Cov (lookLoop n look size st) := by
  intro size
  induction size with
  | zero => intro st hc; exact hc
  | succ s ih =>
    intro st hc
    by_cases hfull : st.opos ≥ n
    · rw [show lookLoop n look (s + 1) st = st from by simp [lookLoop, if_pos hfull]]
      exact hc
    · rw [show lookLoop n look (s + 1) st = lookLoop n look s
        { out := st.out.set st.opos (st.out.getD (st.opos - look) 0)
          opos := st.opos + 1
          ipos := st.ipos
          log := st.log ++ [Access.writeO st.opos] } from by
          simp [lookLoop, if_neg hfull]]
      refine ih _ (cov_set st _ _ rfl ?_ ?_ hc)
      · intro a ha; exact List.mem_append_left _ ha
      · exact List.mem_append_right _ (by simp)

theorem litLoop_cov (input : List Nat) (n : Nat) :
    ∀ (size : Nat) (st : St), Cov st → Cov (litLoop input n size st) := by
  intro size
  induction size with
  | zero => intro st hc; exact hc
  | succ s ih =>
    intro st hc
    by_cases hfull : st.opos ≥ n
    · rw [show litLoop input n (s + 1) st = st from by simp [litLoop, if_pos hfull]]
      exact hc
    · rw [show litLoop input n (s + 1) st = litLoop input n s
        { out := st.out.set st.opos (input.getD st.ipos 0)
          opos := st.opos + 1
          ipos := st.ipos + 1
          log := st.log ++ [Access.readI st.ipos, Access.writeO st.opos] } from by
          simp [litLoop, if_neg hfull]]
      refine ih _ (cov_set st _ _ rfl ?_ ?_ hc)
      · intro a ha; exact List.mem_append_left _ ha
      · exact List.mem_append_right _ (by simp)

theorem blendInner_cov (input : List Nat) (n base : Nat) :
    ∀ (rem i : Nat) (st : St), Cov st → Cov (blendInner input n base i rem st) := by
  intro rem
  induction rem with
  | zero => intro i st hc; exact hc
  | succ r ih =>
    intro i st hc
    by_cases hfull : st.opos ≥ n
    · rw [show blendInner input n base i (r + 1) st = st from by
        simp [blendInner, if_pos hfull]]
      exact hc
    · rw [show blendInner input n base i (r + 1) st = blendInner input n base (i + 1) r
        { out := st.out.set st.opos
            ((st.out.getD st.opos 0 + input.getD (base + i) 0) % 256)
          opos := st.opos + 1
          ipos := st.ipos
          log := st.log ++ [Access.readI (base + i), Access.writeO st.opos] } from by
          simp [blendInner, if_neg hfull]]
      refine ih _ _ (cov_set st _ _ rfl ?_ ?_ hc)
      · intro a ha; exact List.mem_append_left _ ha
      · exact List.mem_append_right _ (by simp)

theorem blendOuter_cov (input : List Nat) (n base size : Nat) :
    ∀ (reps : Nat) (st : St), Cov st → Cov (blendOuter input n base size reps st) := by
  intro reps
  induction reps with
  | zero => intro st hc; exact hc
  | succ r ih =>
    intro st hc
    exact ih _ (blendInner_cov input n base size 0 st hc)

theorem fillOp_cov (input : List Nat) (n b : Nat) (st : St) (hc : Cov st) :
    Cov (fillOp input n b st) := by
  set st1 : St := { st with ipos := st.ipos + 1, log := st.log ++ [Access.readI st.ipos] }
    with hst1
  have h1 : Cov st1 :=
    cov_mono st st1 (by rw [hst1]) (fun a ha => by rw [hst1]; exact List.mem_append_left _ ha) hc
  by_cases h20 : b &&& 0x20 ≠ 0
  · rw [show fillOp input n b st =
      { fillLoop input n ((b &&& 0x1F) + 2 + input.getD st.ipos 0 <<< 5) st1 with
        ipos := (fillLoop input n ((b &&& 0x1F) + 2 + input.getD st.ipos 0 <<< 5) st1).ipos
          + 1 } from by simp only [fillOp, if_pos h20]]
    intro i hi
    exact fillLoop_cov input n _ st1 h1 i hi
  · rw [show fillOp input n b st =
      { fillLoop input n ((b &&& 0x1F) + 2 + 0) st with
        ipos := (fillLoop input n ((b &&& 0x1F) + 2 + 0) st).ipos + 1 } from by
      simp only [fillOp, if_neg h20]]
    intro i hi
    exact fillLoop_cov input n _ st hc i hi

theorem lookOp_cov (input : List Nat) (n b : Nat) (st : St) (hc : Cov st) :
    Cov (lookOp input n b st) := by
  set st1 : St := { st with ipos := st.ipos + 1, log := st.log ++ [Access.readI st.ipos] }
    with hst1
  have h1 : Cov st1 :=
    cov_mono st st1 (by rw [hst1]) (fun a ha => by rw [hst1]; exact List.mem_append_left _ ha) hc
  rw [show lookOp input n b st =
    lookLoop n ((b &&& 3) <<< 8 + input.getD st.ipos 0 + 1) ((b >>> 2 &&& 0xF) + 2) st1
    from rfl]
  exact lookLoop_cov n _ _ st1 h1

theorem blendOp_cov (input : List Nat) (n b : Nat) (st : St) (hc : Cov st) :
    Cov (blendOp input n b st) := by
  set st1 : St := { st with ipos := st.ipos + 1, log := st.log ++ [Access.readI st.ipos] }
    with hst1
  have h1 : Cov st1 :=
    cov_mono st st1 (by rw [hst1]) (fun a ha => by rw [hst1]; exact List.mem_append_left _ ha) hc
  rw [show blendOp input n b st =
    { blendOuter input n (st.ipos + 1) ((b &&& 0x3F) + 2) (input.getD st.ipos 0 + 1) st1 with
      ipos := (blendOuter input n (st.ipos + 1) ((b &&& 0x3F) + 2)
        (input.getD st.ipos 0 + 1) st1).ipos + ((b &&& 0x3F) + 2) } from rfl]
  intro i hi
  exact blendOuter_cov input n _ _ _ st1 h1 i hi

theorem litOp_cov (input : List Nat) (n b : Nat) (st : St) (hc : Cov st) :
    Cov (litOp input n b st) := by
  set st1 : St := { st with ipos := st.ipos + 1, log := st.log ++ [Access.readI st.ipos] }
    with hst1
  have h1 : Cov st1 :=
    cov_mono st st1 (by rw [hst1]) (fun a ha => by rw [hst1]; exact List.mem_append_left _ ha) hc
  by_cases h20 : b &&& 0x20 ≠ 0
  · rw [show litOp input n b st =
      litLoop input n ((b &&& 0x1F) + 1 + input.getD st.ipos 0 <<< 5) st1 from by
      simp only [litOp, if_pos h20]]
    exact litLoop_cov input n _ st1 h1
  · rw [show litOp input n b st = litLoop input n ((b &&& 0x1F) + 1 + 0) st from by
      simp only [litOp, if_neg h20]]
    exact litLoop_cov input n _ st hc

theorem execOp_cov (input : List Nat) (n b : Nat) (st : St) (hc : Cov st) :
    Cov (execOp input n b st) := by
  unfold execOp
  by_cases h80 : b &&& 0x80 ≠ 0
  · rw [if_pos h80]
    by_cases h40 : b &&& 0x40 ≠ 0
    · rw [if_pos h40]; exact fillOp_cov input n b st hc
    · rw [if_neg h40]; exact lookOp_cov input n b st hc
  · rw [if_neg h80]
    by_cases h40 : b &&& 0x40 ≠ 0
    · rw [if_pos h40]; exact blendOp_cov input n b st hc
    · rw [if_neg h40]; exact litOp_cov input n b st hc

theorem loopF_cov (input : List Nat) (n : Nat) :
    ∀ (f : Nat) (st : St), Cov st → Cov (loopF input n f st) := by
  intro f
  induction f with
  | zero => intro st hc; exact hc
  | succ f ih =>
    intro st hc
    by_cases hcnd : st.opos < n ∧ st.ipos < input.length
    · rw [show loopF input n (f + 1) st = loopF input n f
        (execOp input n (input.getD st.ipos 0)
          { st with ipos := st.ipos + 1, log := st.log ++ [Access.readI st.ipos] }) from by
          simp [loopF, if_pos hcnd]]
      exact ih _ (execOp_cov input n _ _
        (cov_mono st _ rfl (fun a ha => List.mem_append_left _ ha) hc))
    · rw [show loopF input n (f + 1) st = st from by simp [loopF, if_neg hcnd]]
      exact hc

/-! ### Claim C10 -/

/-- C10: `decompress_raw_data` always returns a buffer of exactly
`expected_output_size` bytes — including when the input is exhausted
before the output fills — and every output position that no decoded
operation ever wrote (no `writeO` entry in the access log) still holds
the zero byte: the buffer is zero-initialized at allocation and returned
whole. -/
theorem lnd_zero_initialized_output :
    ∀ (input : List Nat) (n i : Nat),
      (decompress_raw_data input n).length = n ∧
      (i < n → Access.writeO i ∉ (runLnd input n).log →
        (runLnd input n).out.getD i 0 = 0) := by
  intro input n i
  constructor
  · unfold decompress_raw_data runLnd
    rw [loopF_len]
    simp
  · intro _ hnot
    by_contra hne
    have hcov : Cov (runLnd input n) := by
      unfold runLnd
      refine loopF_cov input n (input.length + 1) _ ?_
      intro j hj
      rw [getD_replicate] at hj
      exact absurd rfl hj
    exact hnot (hcov i hne)

/-- C10 witness: input `[0x00, 0x07]` (one literal byte) with output size
3: position 2 is never written (no `writeO 2` in the log) and indeed
holds 0, and the returned length is exactly 3. -/
theorem lnd_zero_initialized_output_witness :
    (2 < 3) ∧ Access.writeO 2 ∉ (runLnd [0, 7] 3).log ∧
    (runLnd [0, 7] 3).out.getD 2 0 = 0 ∧
    (decompress_raw_data [0, 7] 3).length = 3 :=
  ⟨by decide, by decide,
    (lnd_zero_initialized_output [0, 7] 3 2).2 (by decide) (by decide),
    (lnd_zero_initialized_output [0, 7] 3 2).1⟩

/-! ### Well-formedness: fuel irrelevance and decomposition helpers -/

theorem getD_zero_drop (l : List Nat) (k : Nat) : (l.drop k).getD 0 0 = l.getD k 0 := by
  simp [List.getD_eq_getElem?_getD, List.getElem?_drop]

theorem drop_cons_getD (l : List Nat) (k : Nat) (h : k < l.length) :
    l.drop k = l.getD k 0 :: l.drop (k + 1) := by
  rw [List.drop_eq_getElem_cons h, List.getD_eq_getElem l 0 h]


/-! ### Access-log shape of each loop -/

theorem fillLoop_log (input : List Nat) (n : Nat) :
    ∀ (reps : Nat) (st : St) (a : Access), a ∈ (fillLoop input n reps st).log →
      a ∈ st.log ∨ a = Access.readI st.ipos ∨ ∃ i, i < n ∧ a = Access.writeO i := by
  intro reps
  induction reps with
  | zero => intro st a ha; exact Or.inl ha
  | succ r ih =>
    intro st a ha
    by_cases hfull : st.opos ≥ n
    · rw [show fillLoop input n (r + 1) st = st from by simp [fillLoop, if_pos hfull]] at ha
      exact Or.inl ha
    · rw [show fillLoop input n (r + 1) st = fillLoop input n r
        { out := st.out.set st.opos (input.getD st.ipos 0)
          opos := st.opos + 1
          ipos := st.ipos
          log := st.log ++ [Access.readI st.ipos, Access.writeO st.opos] } from by
          simp [fillLoop, if_neg hfull]] at ha
      rcases ih _ a ha with h | h | h
      · rcases List.mem_append.mp h with h2 | h2
        · exact Or.inl h2
        · simp at h2
          rcases h2 with h3 | h3
          · exact Or.inr (Or.inl h3)
          · exact Or.inr (Or.inr ⟨st.opos, by omega, h3⟩)
      · exact Or.inr (Or.inl h)
      · exact Or.inr (Or.inr h)

theorem lookLoop_log (n look : Nat) :
    ∀ (size : Nat) (st : St) (a : Access), a ∈ (lookLoop n look size st).log →
      a ∈ st.log ∨ ∃ i, i < n ∧ a = Access.writeO i := by
  intro size
  induction size with
  | zero => intro st a ha; exact Or.inl ha
  | succ s ih =>
    intro st a ha
    by_cases hfull : st.opos ≥ n
    · rw [show lookLoop n look (s + 1) st = st from by simp [lookLoop, if_pos hfull]] at ha
      exact Or.inl ha
    · rw [show lookLoop n look (s + 1) st = lookLoop n look s
        { out := st.out.set st.opos (st.out.getD (st.opos - look) 0)
          opos := st.opos + 1
          ipos := st.ipos
          log := st.log ++ [Access.writeO st.opos] } from by
          simp [lookLoop, if_neg hfull]] at ha
      rcases ih _ a ha with h | h
      · rcases List.mem_append.mp h with h2 | h2
        · exact Or.inl h2
        · simp at h2
          exact Or.inr ⟨st.opos, by omega, h2⟩
      · exact Or.inr h

theorem litLoop_log (input : List Nat) (n : Nat) :
    ∀ (size : Nat) (st : St) (a : Access), a ∈ (litLoop input n size st).log →
      a ∈ st.log ∨ (∃ j, st.ipos ≤ j ∧ j < st.ipos + size ∧ a = Access.readI j) ∨
        ∃ i, i < n ∧ a = Access.writeO i := by
  intro size
  induction size with
  | zero => intro st a ha; exact Or.inl ha
  | succ s ih =>
    intro st a ha
    by_cases hfull : st.opos ≥ n
    · rw [show litLoop input n (s + 1) st = st from by simp [litLoop, if_pos hfull]] at ha
      exact Or.inl ha
    · rw [show litLoop input n (s + 1) st = litLoop input n s
        { out := st.out.set st.opos (input.getD st.ipos 0)
          opos := st.opos + 1
          ipos := st.ipos + 1
          log := st.log ++ [Access.readI st.ipos, Access.writeO st.opos] } from by
          simp [litLoop, if_neg hfull]] at ha
      rcases ih _ a ha with h | h | h
      · rcases List.mem_append.mp h with h2 | h2
        · exact Or.inl h2
        · simp at h2
          rcases h2 with h3 | h3
          · exact Or.inr (Or.inl ⟨st.ipos, by omega, by omega, h3⟩)
          · exact Or.inr (Or.inr ⟨st.opos, by omega, h3⟩)
      · obtain ⟨j, hj1, hj2, hj3⟩ := h
        exact Or.inr (Or.inl ⟨j, by simp at hj1; omega, by simp at hj2; omega, hj3⟩)
      · exact Or.inr (Or.inr h)

theorem blendInner_log (input : List Nat) (n base : Nat) :
    ∀ (rem i : Nat) (st : St) (a : Access), a ∈ (blendInner input n base i rem st).log →
      a ∈ st.log ∨ (∃ j, i ≤ j ∧ j < i + rem ∧ a = Access.readI (base + j)) ∨
        ∃ p, p < n ∧ a = Access.writeO p := by
  intro rem
  induction rem with
  | zero => intro i st a ha; exact Or.inl ha
  | succ r ih =>
    intro i st a ha
    by_cases hfull : st.opos ≥ n
    · rw [show blendInner input n base i (r + 1) st = st from by
        simp [blendInner, if_pos hfull]] at ha
      exact Or.inl ha
    · rw [show blendInner input n base i (r + 1) st = blendInner input n base (i + 1) r
        { out := st.out.set st.opos
            ((st.out.getD st.opos 0 + input.getD (base + i) 0) % 256)
          opos := st.opos + 1
          ipos := st.ipos
          log := st.log ++ [Access.readI (base + i), Access.writeO st.opos] } from by
          simp [blendInner, if_neg hfull]] at ha
      rcases ih _ _ a ha with h | h | h
      · rcases List.mem_append.mp h with h2 | h2
        · exact Or.inl h2
        · simp at h2
          rcases h2 with h3 | h3
          · exact Or.inr (Or.inl ⟨i, by omega, by omega, h3⟩)
          · exact Or.inr (Or.inr ⟨st.opos, by omega, h3⟩)
      · obtain ⟨j, hj1, hj2, hj3⟩ := h
        exact Or.inr (Or.inl ⟨j, by omega, by omega, hj3⟩)
      · exact Or.inr (Or.inr h)

theorem blendOuter_log (input : List Nat) (n base size : Nat) :
    ∀ (reps : Nat) (st : St) (a : Access), a ∈ (blendOuter input n base size reps st).log →
      a ∈ st.log ∨ (∃ j, j < size ∧ a = Access.readI (base + j)) ∨
        ∃ p, p < n ∧ a = Access.writeO p := by
  intro reps
  induction reps with
  | zero => intro st a ha; exact Or.inl ha
  | succ r ih =>
    intro st a ha
    rw [show blendOuter input n base size (r + 1) st =
      blendOuter input n base size r (blendInner input n base 0 size st) from rfl] at ha
    rcases ih _ a ha with h | h | h
    · rcases blendInner_log input n base size 0 st a h with h2 | h2 | h2
      · exact Or.inl h2
      · obtain ⟨j, _, hj2, hj3⟩ := h2
        exact Or.inr (Or.inl ⟨j, by omega, hj3⟩)
      · exact Or.inr (Or.inr h2)
    · exact Or.inr (Or.inl h)
    · exact Or.inr (Or.inr h)

/-! ### Operation-level position and log lemmas -/

theorem lookOp_ipos (input : List Nat) (n b : Nat) (st : St) :
    (lookOp input n b st).ipos = st.ipos + 1 := by
  rw [show lookOp input n b st =
    lookLoop n ((b &&& 3) <<< 8 + input.getD st.ipos 0 + 1) ((b >>> 2 &&& 0xF) + 2)
      { st with ipos := st.ipos + 1, log := st.log ++ [Access.readI st.ipos] } from rfl]
  rw [(lookLoop_basic n _ _ _).2]

theorem litOp_spec (input : List Nat) (n b : Nat) (st : St) :
    (litOp input n b st).ipos = st.ipos + (if b &&& 0x20 ≠ 0 then 1 else 0) +
      min ((b &&& 0x1F) + 1 + (if b &&& 0x20 ≠ 0 then input.getD st.ipos 0 <<< 5 else 0))
        (n - st.opos) ∧
    (litOp input n b st).opos = st.opos +
      min ((b &&& 0x1F) + 1 + (if b &&& 0x20 ≠ 0 then input.getD st.ipos 0 <<< 5 else 0))
        (n - st.opos) := by
  by_cases h20 : b &&& 0x20 ≠ 0
  · set st1 : St := { st with ipos := st.ipos + 1, log := st.log ++ [Access.readI st.ipos] }
      with hst1
    rw [show litOp input n b st =
      litLoop input n ((b &&& 0x1F) + 1 + input.getD st.ipos 0 <<< 5) st1 from by
      simp only [litOp, if_pos h20]]
    obtain ⟨_, I, O⟩ := litLoop_spec input n ((b &&& 0x1F) + 1 + input.getD st.ipos 0 <<< 5) st1
    have h1i : st1.ipos = st.ipos + 1 := by rw [hst1]
    have h1o : st1.opos = st.opos := by rw [hst1]
    rw [I, O, h1i, h1o]
    constructor
    · rw [if_pos h20, if_pos h20]
    · rw [if_pos h20]
  · rw [show litOp input n b st = litLoop input n ((b &&& 0x1F) + 1 + 0) st from by
      simp only [litOp, if_neg h20]]
    obtain ⟨_, I, O⟩ := litLoop_spec input n ((b &&& 0x1F) + 1 + 0) st
    rw [I, O]
    constructor
    · rw [if_neg h20, if_neg h20]
      omega
    · rw [if_neg h20]

theorem fillOp_log (input : List Nat) (n b : Nat) (st : St)
    (hav : st.ipos + (if b &&& 0x20 ≠ 0 then 1 else 0) < input.length)
    (hlog : ∀ a ∈ st.log, okA input n a = true) :
    ∀ a ∈ (fillOp input n b st).log, okA input n a = true := by
  set st1 : St := { st with ipos := st.ipos + 1, log := st.log ++ [Access.readI st.ipos] }
    with hst1
  have h1i : st1.ipos = st.ipos + 1 := by rw [hst1]
  have h1l : st1.log = st.log ++ [Access.readI st.ipos] := by rw [hst1]
  by_cases h20 : b &&& 0x20 ≠ 0
  · rw [if_pos h20] at hav
    intro a ha
    rw [show fillOp input n b st =
      { fillLoop input n ((b &&& 0x1F) + 2 + input.getD st.ipos 0 <<< 5) st1 with
        ipos := (fillLoop input n ((b &&& 0x1F) + 2 + input.getD st.ipos 0 <<< 5) st1).ipos
          + 1 } from by simp only [fillOp, if_pos h20]] at ha
    rcases fillLoop_log input n _ st1 a ha with h | h | h
    · rw [h1l] at h
      rcases List.mem_append.mp h with h2 | h2
      · exact hlog a h2
      · simp at h2
        subst h2
        simp only [okA, decide_eq_true_eq]
        omega
    · rw [h1i] at h
      subst h
      simp only [okA, decide_eq_true_eq]
      omega
    · obtain ⟨i, hi, rfl⟩ := h
      simp only [okA, decide_eq_true_eq]
      exact hi
  · rw [if_neg h20] at hav
    intro a ha
    rw [show fillOp input n b st =
      { fillLoop input n ((b &&& 0x1F) + 2 + 0) st with
        ipos := (fillLoop input n ((b &&& 0x1F) + 2 + 0) st).ipos + 1 } from by
      simp only [fillOp, if_neg h20]] at ha
    rcases fillLoop_log input n _ st a ha with h | h | h
    · exact hlog a h
    · subst h
      simp only [okA, decide_eq_true_eq]
      omega
    · obtain ⟨i, hi, rfl⟩ := h
      simp only [okA, decide_eq_true_eq]
      exact hi

theorem lookOp_log (input : List Nat) (n b : Nat) (st : St)
    (hav : st.ipos < input.length)
    (hlog : ∀ a ∈ st.log, okA input n a = true) :
    ∀ a ∈ (lookOp input n b st).log, okA input n a = true := by
  set st1 : St := { st with ipos := st.ipos + 1, log := st.log ++ [Access.readI st.ipos] }
    with hst1
  have h1l : st1.log = st.log ++ [Access.readI st.ipos] := by rw [hst1]
  intro a ha
  rw [show lookOp input n b st =
    lookLoop n ((b &&& 3) <<< 8 + input.getD st.ipos 0 + 1) ((b >>> 2 &&& 0xF) + 2) st1
    from rfl] at ha
  rcases lookLoop_log n _ _ st1 a ha with h | h
  · rw [h1l] at h
    rcases List.mem_append.mp h with h2 | h2
    · exact hlog a h2
    · simp at h2
      subst h2
      simp only [okA, decide_eq_true_eq]
      exact hav
  · obtain ⟨i, hi, rfl⟩ := h
    simp only [okA, decide_eq_true_eq]
    exact hi

theorem blendOp_log (input : List Nat) (n b : Nat) (st : St)
    (hav : st.ipos + 1 + ((b &&& 0x3F) + 2) ≤ input.length)
    (hlog : ∀ a ∈ st.log, okA input n a = true) :
    ∀ a ∈ (blendOp input n b st).log, okA input n a = true := by
  set st1 : St := { st with ipos := st.ipos + 1, log := st.log ++ [Access.readI st.ipos] }
    with hst1
  have h1l : st1.log = st.log ++ [Access.readI st.ipos] := by rw [hst1]
  intro a ha
  rw [show blendOp input n b st =
    { blendOuter input n (st.ipos + 1) ((b &&& 0x3F) + 2) (input.getD st.ipos 0 + 1) st1 with
      ipos := (blendOuter input n (st.ipos + 1) ((b &&& 0x3F) + 2)
        (input.getD st.ipos 0 + 1) st1).ipos + ((b &&& 0x3F) + 2) } from rfl] at ha
  rcases blendOuter_log input n (st.ipos + 1) ((b &&& 0x3F) + 2) _ st1 a ha with h | h | h
  · rw [h1l] at h
    rcases List.mem_append.mp h with h2 | h2
    · exact hlog a h2
    · simp at h2
      subst h2
      simp only [okA, decide_eq_true_eq]
      omega
  · obtain ⟨j, hj, rfl⟩ := h
    simp only [okA, decide_eq_true_eq]
    omega
  · obtain ⟨p, hp, rfl⟩ := h
    simp only [okA, decide_eq_true_eq]
    exact hp

theorem litOp_log (input : List Nat) (n b : Nat) (st : St)
    (hav : st.ipos + (if b &&& 0x20 ≠ 0 then 1 else 0) +
      ((b &&& 0x1F) + 1 + (if b &&& 0x20 ≠ 0 then input.getD st.ipos 0 <<< 5 else 0)) ≤
      input.length)
    (hlog : ∀ a ∈ st.log, okA input n a = true) :
    ∀ a ∈ (litOp input n b st).log, okA input n a = true := by
  set st1 : St := { st with ipos := st.ipos + 1, log := st.log ++ [Access.readI st.ipos] }
    with hst1
  have h1i : st1.ipos = st.ipos + 1 := by rw [hst1]
  have h1l : st1.log = st.log ++ [Access.readI st.ipos] := by rw [hst1]
  by_cases h20 : b &&& 0x20 ≠ 0
  · rw [if_pos h20, if_pos h20] at hav
    intro a ha
    rw [show litOp input n b st =
      litLoop input n ((b &&& 0x1F) + 1 + input.getD st.ipos 0 <<< 5) st1 from by
      simp only [litOp, if_pos h20]] at ha
    rcases litLoop_log input n _ st1 a ha with h | h | h
    · rw [h1l] at h
      rcases List.mem_append.mp h with h2 | h2
      · exact hlog a h2
      · simp at h2
        subst h2
        simp only [okA, decide_eq_true_eq]
        omega
    · obtain ⟨j, hj1, hj2, rfl⟩ := h
      rw [h1i] at hj1 hj2
      simp only [okA, decide_eq_true_eq]
      omega
    · obtain ⟨i, hi, rfl⟩ := h
      simp only [okA, decide_eq_true_eq]
      exact hi
  · rw [if_neg h20, if_neg h20] at hav
    intro a ha
    rw [show litOp input n b st = litLoop input n ((b &&& 0x1F) + 1 + 0) st from by
      simp only [litOp, if_neg h20]] at ha
    rcases litLoop_log input n _ st a ha with h | h | h
    · exact hlog a h
    · obtain ⟨j, hj1, hj2, rfl⟩ := h
      simp only [okA, decide_eq_true_eq]
      omega
    · obtain ⟨i, hi, rfl⟩ := h
      simp only [okA, decide_eq_true_eq]
      exact hi

theorem lookOp_len (input : List Nat) (n b : Nat) (st : St) :
    (lookOp input n b st).out.length = st.out.length := by
  set st1 : St := { st with ipos := st.ipos + 1, log := st.log ++ [Access.readI st.ipos] }
    with hst1
  rw [show lookOp input n b st =
    lookLoop n ((b &&& 3) <<< 8 + input.getD st.ipos 0 + 1) ((b >>> 2 &&& 0xF) + 2) st1
    from rfl]
  rw [lookLoop_len]

theorem litOp_len (input : List Nat) (n b : Nat) (st : St) :
    (litOp input n b st).out.length = st.out.length := by
  by_cases h20 : b &&& 0x20 ≠ 0
  · set st1 : St := { st with ipos := st.ipos + 1, log := st.log ++ [Access.readI st.ipos] }
      with hst1
    rw [show litOp input n b st =
      litLoop input n ((b &&& 0x1F) + 1 + input.getD st.ipos 0 <<< 5) st1 from by
      simp only [litOp, if_pos h20]]
    rw [litLoop_len]
  · rw [show litOp input n b st = litLoop input n ((b &&& 0x1F) + 1 + 0) st from by
      simp only [litOp, if_neg h20]]
    rw [litLoop_len]

/-! ### Memory safety of the decompression loop (claim C3) -/

theorem loopF_c3 (input : List Nat) (n : Nat) : ∀ (f : Nat) (st : St),
    st.out.length = n →
    (st.opos < n → WfOps (input.drop st.ipos)) →
    (∀ a ∈ st.log, okA input n a = true) →
    ∀ a ∈ (loopF input n f st).log, okA input n a = true := by
  intro f
  induction f with
  | zero => intro st _ _ hlog a ha; exact hlog a ha
  | succ f ih =>
    intro st hlen hwf0 hlog
    by_cases hcnd : st.opos < n ∧ st.ipos < input.length
    · obtain ⟨hon, hin⟩ := hcnd
      rw [show loopF input n (f + 1) st = loopF input n f
        (execOp input n (input.getD st.ipos 0)
          { st with ipos := st.ipos + 1, log := st.log ++ [Access.readI st.ipos] }) from by
          simp [loopF, if_pos (And.intro hon hin)]]
      have hwf : WfOps (input.drop st.ipos) := hwf0 hon
      rw [drop_cons_getD input st.ipos hin] at hwf
      set b := input.getD st.ipos 0 with hb
      set st1 : St := { st with ipos := st.ipos + 1, log := st.log ++ [Access.readI st.ipos] }
        with hst1
      have h1len : st1.out.length = n := by rw [hst1]; exact hlen
      have h1i : st1.ipos = st.ipos + 1 := by rw [hst1]
      have h1o : st1.opos = st.opos := by rw [hst1]
      have h1l : st1.log = st.log ++ [Access.readI st.ipos] := by rw [hst1]
      have h1log : ∀ a ∈ st1.log, okA input n a = true := by
        intro a ha
        rw [h1l] at ha
        rcases List.mem_append.mp ha with h2 | h2
        · exact hlog a h2
        · simp at h2
          subst h2
          simp only [okA, decide_eq_true_eq]
          exact hin
      have hdl : (input.drop (st.ipos + 1)).length = input.length - (st.ipos + 1) :=
        List.length_drop _ _
      obtain ⟨tail, htail⟩ : ∃ t, input.drop (st.ipos + 1) = t := ⟨_, rfl⟩
      rw [htail] at hwf hdl
      cases hwf with
      | fill b2 v rest h80 h40 h20 hrest =>
        have hexec : execOp input n b st1 = fillOp input n b st1 := by
          simp [execOp, h80, h40]
        rw [hexec]
        simp only [List.length_cons] at hdl
        refine ih (fillOp input n b st1) ?_ ?_ ?_
        · obtain ⟨_, L, _, _⟩ := fillOp_spec input n b st1 h1len
          exact L
        · intro _
          obtain ⟨I, _, _, _⟩ := fillOp_spec input n b st1 h1len
          rw [I, h1i]
          rw [if_neg (by simp [h20])]
          rw [show st.ipos + 1 + 1 = st.ipos + 1 + 1 from rfl,
            ← List.drop_drop 1 (st.ipos + 1) input, htail]
          exact hrest
        · exact fillOp_log input n b st1
            (by rw [h1i, if_neg (by simp [h20])]; omega) h1log
      | fillExt b2 e v rest h80 h40 h20 hrest =>
        have hexec : execOp input n b st1 = fillOp input n b st1 := by
          simp [execOp, h80, h40]
        rw [hexec]
        simp only [List.length_cons] at hdl
        refine ih (fillOp input n b st1) ?_ ?_ ?_
        · obtain ⟨_, L, _, _⟩ := fillOp_spec input n b st1 h1len
          exact L
        · intro _
          obtain ⟨I, _, _, _⟩ := fillOp_spec input n b st1 h1len
          rw [I, h1i, if_pos h20]
          rw [show st.ipos + 1 + 2 = st.ipos + 1 + 2 from rfl,
            ← List.drop_drop 2 (st.ipos + 1) input, htail]
          exact hrest
        · exact fillOp_log input n b st1
            (by rw [h1i, if_pos h20]; omega) h1log
      | look b2 d rest h80 h40 hrest =>
        have hexec : execOp input n b st1 = lookOp input n b st1 := by
          simp [execOp, h80, h40]
        rw [hexec]
        simp only [List.length_cons] at hdl
        refine ih (lookOp input n b st1) ?_ ?_ ?_
        · rw [lookOp_len]
          exact h1len
        · intro _
          rw [lookOp_ipos, h1i]
          rw [← List.drop_drop 1 (st.ipos + 1) input, htail]
          exact hrest
        · exact lookOp_log input n b st1 (by omega) h1log
      | blend b2 r w rest h80 h40 hw hrest =>
        have hexec : execOp input n b st1 = blendOp input n b st1 := by
          simp [execOp, h80, h40]
        rw [hexec]
        simp only [List.length_cons, List.length_append] at hdl
        have hop1 : st1.opos ≤ n := by omega
        obtain ⟨I, L, _, _⟩ := blendOp_spec input n b st1 h1len hop1
        refine ih (blendOp input n b st1) ?_ ?_ ?_
        · rw [L]
        · intro _
          rw [I, h1i]
          have e1 : st.ipos + 1 + 1 + ((b &&& 0x3F) + 2) =
              (st.ipos + 1) + (1 + w.length) := by omega
          rw [e1, ← List.drop_drop (1 + w.length) (st.ipos + 1) input, htail]
          rw [show (1 + w.length) = w.length + 1 from by omega]
          rw [List.drop_succ_cons]
          rw [List.drop_left]
          exact hrest
        · exact blendOp_log input n b st1 (by rw [h1i]; omega) h1log
      | lit b2 w rest h80 h40 h20 hw hrest =>
        have hexec : execOp input n b st1 = litOp input n b st1 := by
          simp [execOp, h80, h40]
        rw [hexec]
        simp only [List.length_append] at hdl
        obtain ⟨I, O⟩ := litOp_spec input n b st1
        refine ih (litOp input n b st1) ?_ ?_ ?_
        · rw [litOp_len]
          exact h1len
        · intro hop'
          rw [O, h1o] at hop'
          rw [if_neg (by simp [h20])] at hop'
          rw [I, h1i, h1o]
          rw [if_neg (by simp [h20]), if_neg (by simp [h20])] at *
          have hk : min ((b &&& 0x1F) + 1 + 0) (n - st.opos) = (b &&& 0x1F) + 1 + 0 := by
            omega
          rw [hk]
          have e1 : st.ipos + 1 + 0 + ((b &&& 0x1F) + 1 + 0) =
              (st.ipos + 1) + w.length := by omega
          rw [e1, ← List.drop_drop w.length (st.ipos + 1) input, htail]
          rw [List.drop_left]
          exact hrest
        · refine litOp_log input n b st1 ?_ h1log
          rw [h1i, if_neg (by simp [h20]), if_neg (by simp [h20])]
          omega
      | litExt b2 e w rest h80 h40 h20 hw hrest =>
        have hexec : execOp input n b st1 = litOp input n b st1 := by
          simp [execOp, h80, h40]
        rw [hexec]
        simp only [List.length_cons, List.length_append] at hdl
        have he : input.getD (st.ipos + 1) 0 = e := by
          rw [← getD_zero_drop input (st.ipos + 1), htail]
          rfl
        obtain ⟨I, O⟩ := litOp_spec input n b st1
        rw [h1i, he] at I O
        refine ih (litOp input n b st1) ?_ ?_ ?_
        · rw [litOp_len]
          exact h1len
        · intro hop'
          rw [O, h1o, if_pos h20] at hop'
          rw [I, h1o, if_pos h20, if_pos h20]
          have hk : min ((b &&& 0x1F) + 1 + e <<< 5) (n - st.opos) =
              (b &&& 0x1F) + 1 + e <<< 5 := by
            omega
          rw [hk]
          have e1 : st.ipos + 1 + 1 + ((b &&& 0x1F) + 1 + e <<< 5) =
              (st.ipos + 1) + (w.length + 1) := by omega
          rw [e1, ← List.drop_drop (w.length + 1) (st.ipos + 1) input, htail]
          rw [List.drop_succ_cons]
          rw [List.drop_left]
          exact hrest
        · refine litOp_log input n b st1 ?_ h1log
          rw [h1i, if_pos h20, if_pos h20, he]
          omega
    · rw [show loopF input n (f + 1) st = st from by simp [loopF, if_neg hcnd]]
      exact hlog

/-- C3: for every input whose encoded operations are well-formed and every
expected output size, the decompression engine never writes to an output
index at or beyond `expected_output_size` and never reads from an input
index at or beyond the input's length — every access in the run's log is
in bounds; both out-of-data conditions end decoding gracefully at the loop
guard rather than accessing out of bounds. -/
theorem lnd_decompress_memory_safety :
    ∀ (input : List Nat) (n : Nat), WfOps input →
      ∀ a ∈ (runLnd input n).log, okA input n a = true := by
  intro input n hwf
  unfold runLnd
  refine loopF_c3 input n (input.length + 1) _ (by simp) ?_ ?_
  · intro _
    simpa using hwf
  · intro a ha
    exact absurd ha (List.not_mem_nil a)

/-- C3 witness: the well-formed input `[0x00, 0xAA]` (a one-byte literal
copy) with output size 1: every logged access of the run is in bounds. -/
theorem lnd_decompress_memory_safety_witness :
    WfOps [0, 170] ∧ ∀ a ∈ (runLnd [0, 170] 1).log, okA [0, 170] 1 a = true := by
  have hwf : WfOps [0, 170] :=
    WfOps.lit 0 [170] [] (by decide) (by decide) (by decide) (by decide) WfOps.nil
  exact ⟨hwf, lnd_decompress_memory_safety [0, 170] 1 hwf⟩

/-! ### Claim C4: LND signature rejection -/

/-- C4: for every input file whose first 4 bytes do not equal the LND
signature `"lnd\x00"`, the decode entry point fails with CorruptData
(per the spec-modelled framework wrapper) while recognition returns
false. -/
theorem lnd_bad_signature_rejected :
    ∀ (file : List Nat), file.take 4 ≠ lnd_magic →
      lnd_decode file = DecodeResult.corruptData ∧ lnd_is_recognized file = false := by
  intro file h
  have hrec : lnd_is_recognized file = false := by
    simp [lnd_is_recognized, h]
  refine ⟨?_, hrec⟩
  simp [lnd_decode, hrec]

/-- C4 witness: the file `[0, 0, 0, 0, 1, 2]` does not start with the
signature; decode fails with CorruptData, recognition is false. -/
theorem lnd_bad_signature_rejected_witness :
    [0, 0, 0, 0, 1, 2].take 4 ≠ lnd_magic ∧
    lnd_decode [0, 0, 0, 0, 1, 2] = DecodeResult.corruptData ∧
    lnd_is_recognized [0, 0, 0, 0, 1, 2] = false :=
  ⟨by decide, (lnd_bad_signature_rejected [0, 0, 0, 0, 1, 2] (by decide)).1,
    (lnd_bad_signature_rejected [0, 0, 0, 0, 1, 2] (by decide)).2⟩

/-! ### Claim C5: XP3 version detection and minor version check -/

/-- C5: version 2 is detected exactly when the 4-byte little-endian
integer at absolute archive offset 19 equals 1, with the cursor position
restored afterwards; and in the version-2 path (given that the two header
fields at the cursor are within the archive), `get_table_offset` fails
with CorruptData — message "Unexpected XP3 version" — if and only if the
4-byte minor-version field read after the 8-byte additional-header
offset is not 1. -/
theorem xp3_version_detection :
    ∀ (arc : List Nat) (pos : Nat), pos + 12 ≤ arc.length →
      ((detect_version arc pos).1 = 2 ↔ ru32 arc 19 = 1) ∧
      (detect_version arc pos).2 = pos ∧
      ((∃ m, get_table_offset arc 2 pos = Except.error (XpErr.corruptData m)) ↔
        ru32 arc (pos + 8) ≠ 1) ∧
      (ru32 arc (pos + 8) ≠ 1 →
        get_table_offset arc 2 pos =
          Except.error (XpErr.corruptData "Unexpected XP3 version")) := by
  intro arc pos _
  refine ⟨?_, rfl, ?_, ?_⟩
  · unfold detect_version
    by_cases h : ru32 arc 19 = 1
    · simp [h]
    · simp [h]
  · unfold get_table_offset
    by_cases hm : ru32 arc (pos + 8) ≠ 1
    · simp [hm]
    · simp [hm]
  · intro hm
    unfold get_table_offset
    simp [hm]

/-- C5 witness: a 22-byte archive whose byte at offset 19 is 1 (so the
u32 at 19 reads 1 — version 2 — and the minor-version u32 at 10+8=18
reads 256 ≠ 1): version 2 is detected, the position is restored, and
`get_table_offset` fails with CorruptData "Unexpected XP3 version". -/
theorem xp3_version_detection_witness :
    10 + 12 ≤ ([0, 0, 0, 0, 0, 0, 0, 0, 0, 0, 0, 0, 0, 0, 0, 0, 0, 0, 0, 1, 0, 0] :
      List Nat).length ∧
    (detect_version [0, 0, 0, 0, 0, 0, 0, 0, 0, 0, 0, 0, 0, 0, 0, 0, 0, 0, 0, 1, 0, 0] 10).1 = 2 ∧
    (detect_version [0, 0, 0, 0, 0, 0, 0, 0, 0, 0, 0, 0, 0, 0, 0, 0, 0, 0, 0, 1, 0, 0] 10).2 = 10 ∧
    get_table_offset [0, 0, 0, 0, 0, 0, 0, 0, 0, 0, 0, 0, 0, 0, 0, 0, 0, 0, 0, 1, 0, 0] 2 10 =
      Except.error (XpErr.corruptData "Unexpected XP3 version") := by
  refine ⟨by decide, ?_, ?_, ?_⟩
  · exact (xp3_version_detection [0, 0, 0, 0, 0, 0, 0, 0, 0, 0, 0, 0, 0, 0, 0, 0, 0, 0, 0, 1, 0, 0]
      10 (by decide)).1.mpr (by decide)
  · exact (xp3_version_detection [0, 0, 0, 0, 0, 0, 0, 0, 0, 0, 0, 0, 0, 0, 0, 0, 0, 0, 0, 1, 0, 0]
      10 (by decide)).2.1
  · exact (xp3_version_detection [0, 0, 0, 0, 0, 0, 0, 0, 0, 0, 0, 0, 0, 0, 0, 0, 0, 0, 0, 1, 0, 0]
      10 (by decide)).2.2.2 (by decide)

/-! ### Claim C6: File chunk declared length must match the consumed span -/

/-- C6: for an entry record whose INFO, SEGM and ADLR sub-chunks parse,
if the number of table bytes they consumed differs from the `File`
chunk's declared 8-byte length, `read_file` fails with CorruptData
"Unexpected file data size" (which aborts the whole unpack, since the
entry loop propagates the error). -/
theorem xp3_file_chunk_size_exactness :
    ∀ (inflate : List Nat → List Nat) (filter : List Nat → Nat → List Nat)
      (arc table : List Nat) (pos : Nat) (ic : InfoChunk) (d : List Nat)
      (key p1 p2 p3 : Nat),
      (table.drop pos).take 4 = file_magic →
      read_info_chunk table (pos + 12) = Except.ok (ic, p1) →
      read_data_from_segm_chunk inflate table arc p1 = Except.ok (d, p2) →
      read_key_from_adlr_chunk table p2 = Except.ok (key, p3) →
      p3 - (pos + 12) ≠ ru64 table (pos + 4) →
      read_file inflate filter arc table pos =
        Except.error (XpErr.corruptData "Unexpected file data size") := by
  intro inflate filter arc table pos ic d key p1 p2 p3 hmagic hinfo hsegm hadlr hne
  unfold read_file
  rw [if_neg (by simp [hmagic])]
  simp only [hinfo, hsegm, hadlr]
  rw [if_pos hne]

/-- C6 witness: a concrete entry whose `File` chunk declares length 61
while the INFO (34 bytes) + SEGM (12 bytes, zero records) + ADLR (16
bytes) sub-chunks span 62 table bytes — one byte more than declared —
fails with CorruptData "Unexpected file data size". -/
theorem xp3_file_chunk_size_exactness_witness :
    (([70, 105, 108, 101, 61, 0, 0, 0, 0, 0, 0, 0,
       105, 110, 102, 111, 22, 0, 0, 0, 0, 0, 0, 0, 0, 0, 0, 0,
       0, 0, 0, 0, 0, 0, 0, 0, 0, 0, 0, 0, 0, 0, 0, 0, 0, 0,
       115, 101, 103, 109, 0, 0, 0, 0, 0, 0, 0, 0,
       97, 100, 108, 114, 4, 0, 0, 0, 0, 0, 0, 0, 0, 0, 0, 0] : List Nat).drop 0).take 4 =
      file_magic ∧
    (74 : Nat) - (0 + 12) ≠
      ru64 [70, 105, 108, 101, 61, 0, 0, 0, 0, 0, 0, 0,
        105, 110, 102, 111, 22, 0, 0, 0, 0, 0, 0, 0, 0, 0, 0, 0,
        0, 0, 0, 0, 0, 0, 0, 0, 0, 0, 0, 0, 0, 0, 0, 0, 0, 0,
        115, 101, 103, 109, 0, 0, 0, 0, 0, 0, 0, 0,
        97, 100, 108, 114, 4, 0, 0, 0, 0, 0, 0, 0, 0, 0, 0, 0] (0 + 4) ∧
    read_file (fun l => l) (fun d _ => d) []
      [70, 105, 108, 101, 61, 0, 0, 0, 0, 0, 0, 0,
       105, 110, 102, 111, 22, 0, 0, 0, 0, 0, 0, 0, 0, 0, 0, 0,
       0, 0, 0, 0, 0, 0, 0, 0, 0, 0, 0, 0, 0, 0, 0, 0, 0, 0,
       115, 101, 103, 109, 0, 0, 0, 0, 0, 0, 0, 0,
       97, 100, 108, 114, 4, 0, 0, 0, 0, 0, 0, 0, 0, 0, 0, 0] 0 =
      Except.error (XpErr.corruptData "Unexpected file data size") :=
  ⟨by decide, by decide,
    xp3_file_chunk_size_exactness (fun l => l) (fun d _ => d) []
      [70, 105, 108, 101, 61, 0, 0, 0, 0, 0, 0, 0,
       105, 110, 102, 111, 22, 0, 0, 0, 0, 0, 0, 0, 0, 0, 0, 0,
       0, 0, 0, 0, 0, 0, 0, 0, 0, 0, 0, 0, 0, 0, 0, 0, 0, 0,
       115, 101, 103, 109, 0, 0, 0, 0, 0, 0, 0, 0,
       97, 100, 108, 114, 4, 0, 0, 0, 0, 0, 0, 0, 0, 0, 0, 0] 0
      { flags := 0, file_size_original := 0, file_size_compressed := 0, name := [] }
      [] 0 46 58 74 (by decide) rfl rfl rfl (by decide)⟩

/-! ### Claim C7: SEGM record assembly -/

theorem segmLoop_join (inflate : List Nat → List Nat) (table arc : List Nat) :
    ∀ (cnt rp : Nat),
      segmLoop inflate table arc rp cnt =
        ((List.range cnt).map (fun k => segData inflate table arc (rp + 28 * k))).flatten := by
  intro cnt
  induction cnt with
  | zero => intro rp; rfl
  | succ c ih =>
    intro rp
    rw [show segmLoop inflate table arc rp (c + 1) =
      segData inflate table arc rp ++ segmLoop inflate table arc (rp + 28) c from rfl]
    rw [ih (rp + 28)]
    rw [List.range_succ_eq_map]
    simp only [List.map_cons, List.flatten_cons, Nat.mul_zero, Nat.add_zero, List.map_map]
    congr 2
    apply List.map_congr_left
    intro k _
    simp only [Function.comp]
    congr 1
    omega

/-- C7: for a `segm` sub-chunk (tag already matching), if the declared
8-byte length is not a multiple of 28, parsing fails with CorruptData
"Unexpected SEGM chunk size"; if it is, the assembled data is the
in-order concatenation, over the consecutive 28-byte records, of the
inflated `compressed size` bytes at the record's archive offset when the
record's `flags & 7` is nonzero and of the raw `original size` bytes at
that offset otherwise, and the table cursor ends just past the chunk. -/
theorem xp3_segm_assembly :
    ∀ (inflate : List Nat → List Nat) (table arc : List Nat) (pos : Nat),
      (table.drop pos).take 4 = segm_magic →
      (ru64 table (pos + 4) % 28 ≠ 0 →
        read_data_from_segm_chunk inflate table arc pos =
          Except.error (XpErr.corruptData "Unexpected SEGM chunk size")) ∧
      (ru64 table (pos + 4) % 28 = 0 →
        read_data_from_segm_chunk inflate table arc pos =
          Except.ok
            (((List.range (ru64 table (pos + 4) / 28)).map
              (fun k => segData inflate table arc (pos + 12 + 28 * k))).flatten,
             pos + 12 + ru64 table (pos + 4))) := by
  intro inflate table arc pos hmagic
  constructor
  · intro hmod
    unfold read_data_from_segm_chunk
    rw [if_neg (by simp [hmagic])]
    rw [if_pos hmod]
  · intro hmod
    unfold read_data_from_segm_chunk
    rw [if_neg (by simp [hmagic])]
    simp only [hmod]
    rw [if_neg (by simp)]
    rw [segmLoop_join]

/-- C7 witness: a `segm` chunk of declared length 28 with one stored
record (`flags & 7 = 0`, archive offset 2, original size 3) over the
archive `[10, 11, 12, 13, 14, 15]` assembles exactly the raw bytes
`[12, 13, 14]`; and the same chunk with declared length 27 fails with
CorruptData "Unexpected SEGM chunk size". -/
theorem xp3_segm_assembly_witness :
    (([115, 101, 103, 109, 28, 0, 0, 0, 0, 0, 0, 0,
       0, 0, 0, 0, 2, 0, 0, 0, 0, 0, 0, 0, 3, 0, 0, 0,
       0, 0, 0, 0, 99, 0, 0, 0, 0, 0, 0, 0] : List Nat).drop 0).take 4 = segm_magic ∧
    read_data_from_segm_chunk (fun l => l)
      [115, 101, 103, 109, 28, 0, 0, 0, 0, 0, 0, 0,
       0, 0, 0, 0, 2, 0, 0, 0, 0, 0, 0, 0, 3, 0, 0, 0,
       0, 0, 0, 0, 99, 0, 0, 0, 0, 0, 0, 0]
      [10, 11, 12, 13, 14, 15] 0 = Except.ok ([12, 13, 14], 40) ∧
    read_data_from_segm_chunk (fun l => l)
      [115, 101, 103, 109, 27, 0, 0, 0, 0, 0, 0, 0,
       0, 0, 0, 0, 2, 0, 0, 0, 0, 0, 0, 0, 3, 0, 0, 0,
       0, 0, 0, 0, 99, 0, 0, 0, 0, 0, 0, 0]
      [10, 11, 12, 13, 14, 15] 0 =
      Except.error (XpErr.corruptData "Unexpected SEGM chunk size") := by
  refine ⟨by decide, ?_, ?_⟩
  · have h := (xp3_segm_assembly (fun l => l)
      [115, 101, 103, 109, 28, 0, 0, 0, 0, 0, 0, 0,
       0, 0, 0, 0, 2, 0, 0, 0, 0, 0, 0, 0, 3, 0, 0, 0,
       0, 0, 0, 0, 99, 0, 0, 0, 0, 0, 0, 0]
      [10, 11, 12, 13, 14, 15] 0 (by decide)).2 (by decide)
    rw [h]
    rfl
  · exact (xp3_segm_assembly (fun l => l)
      [115, 101, 103, 109, 27, 0, 0, 0, 0, 0, 0, 0,
       0, 0, 0, 0, 2, 0, 0, 0, 0, 0, 0, 0, 3, 0, 0, 0,
       0, 0, 0, 0, 99, 0, 0, 0, 0, 0, 0, 0]
      [10, 11, 12, 13, 14, 15] 0 (by decide)).1 (by decide)

/-! ### Claim C9: the FSN filter -/

theorem getD_map_xor (l : List Nat) (c i : Nat) (h : i < l.length) :
    (l.map (fun x => x ^^^ c)).getD i 0 = l.getD i 0 ^^^ c := by
  simp [List.getD_eq_getElem?_getD, List.getElem?_eq_getElem h]

/-- C9: the FSN filter preserves the buffer length, ignores the key
entirely, and sets byte `i` to `b[i] XOR 0x36`, additionally XORed with 3
exactly when `i = 0x2EA29` and the buffer is longer than `0x2EA29` bytes,
and additionally XORed with 1 exactly when `i = 0x13` and the buffer is
longer than `0x13` bytes.  In particular a buffer of length exactly
`0x2EA29` gets no `XOR 3` correction anywhere (its indices stop short of
`0x2EA29`). -/
theorem fsn_decode_spec :
    ∀ (b : List Nat) (k i : Nat),
      (fsn_decode b k).length = b.length ∧
      fsn_decode b k = fsn_decode b 0 ∧
      (i < b.length →
        (fsn_decode b k).getD i 0 =
          ((b.getD i 0 ^^^ 0x36) ^^^
            (if i = 0x2EA29 ∧ 0x2EA29 < b.length then 3 else 0)) ^^^
            (if i = 0x13 ∧ 0x13 < b.length then 1 else 0)) := by
  intro b k i
  refine ⟨?_, rfl, ?_⟩
  · unfold fsn_decode
    by_cases hA : b.length > 0x2EA29 <;> by_cases hB : b.length > 0x13 <;>
      simp [hA, hB]
  · intro hi
    by_cases hA : b.length > 0x2EA29 <;> by_cases hB : b.length > 0x13
    · have hstep : fsn_decode b k =
          ((b.map (fun x => x ^^^ 0x36)).set 0x2EA29
            ((b.map (fun x => x ^^^ 0x36)).getD 0x2EA29 0 ^^^ 3)).set 0x13
            (((b.map (fun x => x ^^^ 0x36)).set 0x2EA29
              ((b.map (fun x => x ^^^ 0x36)).getD 0x2EA29 0 ^^^ 3)).getD 0x13 0 ^^^ 1) := by
        simp only [fsn_decode, if_pos hA, if_pos hB]
      rw [hstep]
      by_cases hi2 : i = 0x13
      · subst hi2
        rw [getD_set_self _ _ _ (by simp [hA]; omega)]
        rw [getD_set_ne _ _ _ _ (by decide)]
        rw [getD_map_xor b 0x36 0x13 (by omega)]
        rw [if_neg (by simp), if_pos ⟨rfl, hB⟩]
        rw [Nat.xor_zero]
      · by_cases hi1 : i = 0x2EA29
        · subst hi1
          rw [getD_set_ne _ _ _ _ (by decide)]
          rw [getD_set_self _ _ _ (by simp; omega)]
          rw [getD_map_xor b 0x36 0x2EA29 (by omega)]
          rw [if_pos ⟨rfl, hA⟩, if_neg (by simp [hi2])]
          rw [Nat.xor_zero]
        · rw [getD_set_ne _ _ _ _ hi2, getD_set_ne _ _ _ _ hi1]
          rw [getD_map_xor b 0x36 i hi]
          rw [if_neg (by simp [hi1]), if_neg (by simp [hi2])]
          rw [Nat.xor_zero, Nat.xor_zero]
    · exact absurd (by omega : b.length > 0x13) hB
    · have hstep : fsn_decode b k =
          (b.map (fun x => x ^^^ 0x36)).set 0x13
            ((b.map (fun x => x ^^^ 0x36)).getD 0x13 0 ^^^ 1) := by
        simp only [fsn_decode, if_neg hA, if_pos hB]
      rw [hstep]
      by_cases hi2 : i = 0x13
      · subst hi2
        rw [getD_set_self _ _ _ (by simp; omega)]
        rw [getD_map_xor b 0x36 0x13 (by omega)]
        rw [if_neg (by simp), if_pos ⟨rfl, hB⟩]
        rw [Nat.xor_zero]
      · rw [getD_set_ne _ _ _ _ hi2]
        rw [getD_map_xor b 0x36 i hi]
        rw [if_neg (by simp; omega), if_neg (by simp [hi2])]
        rw [Nat.xor_zero, Nat.xor_zero]
    · have hstep : fsn_decode b k = b.map (fun x => x ^^^ 0x36) := by
        simp only [fsn_decode, if_neg hA, if_neg hB]
      rw [hstep]
      rw [getD_map_xor b 0x36 i hi]
      rw [if_neg (by simp; omega), if_neg (by simp; omega)]
      rw [Nat.xor_zero, Nat.xor_zero]

/-- C9 witness: the buffer `[1, 2, 3]` with key 7 at index 1: length is
preserved, the key is irrelevant, and the byte becomes `2 XOR 0x36` with
no offset corrections (the buffer is shorter than both thresholds). -/
theorem fsn_decode_spec_witness :
    (fsn_decode [1, 2, 3] 7).length = 3 ∧
    fsn_decode [1, 2, 3] 7 = fsn_decode [1, 2, 3] 0 ∧
    (1 < 3 ∧
      (fsn_decode [1, 2, 3] 7).getD 1 0 =
        (([1, 2, 3].getD 1 0 ^^^ 0x36) ^^^
          (if 1 = 0x2EA29 ∧ 0x2EA29 < ([1, 2, 3] : List Nat).length then 3 else 0)) ^^^
          (if 1 = 0x13 ∧ 0x13 < ([1, 2, 3] : List Nat).length then 1 else 0)) :=
  ⟨(fsn_decode_spec [1, 2, 3] 7 1).1, (fsn_decode_spec [1, 2, 3] 7 1).2.1,
    by decide, (fsn_decode_spec [1, 2, 3] 7 1).2.2 (by decide)⟩
